import Mathlib

set_option maxHeartbeats 1000000
set_option maxRecDepth 4000

/-!
A shallow embedding of the gclang runtime core (src/x.cc): tagged values, the
managed heap of environments (Table) and closures (Function), the bytecode
compiler from expression trees, the virtual machine dispatch loop and the
mark-and-sweep garbage collector, together with theorems about them.

Heap pointers are modelled as natural-number addresses allocated by a
monotone counter; the managed-object list `allManagedObjects` is modelled as
the heap itself, a list of (address, object) pairs kept in creation order.
Dereferencing an address that is not in the heap is undefined behaviour in
the C++ source (a use-after-free); the model returns the distinguished error
"dangling object reference" at those points.
-/

namespace GcLang

/-- Interned identifier (std::string* obtained from intern). Two interned
identifiers are identical iff their texts are equal, so the model uses the
text itself. -/
abbrev Ident := String

/-- Value: the tagged union with tag in NIL, INTEGER, TABLE, FUNCTION.
TABLE and FUNCTION carry a heap object address. -/
inductive Value where
  | nil
  | integer (i : Int)
  | table (addr : Nat)
  | function (addr : Nat)
deriving DecidableEq

/-- Value::truthy: type != NIL. -/
def Value.truthy : Value → Bool
  | .nil => false
  | _ => true

/-- Value::isObject: not NIL and not INTEGER. -/
def Value.isObject : Value → Bool
  | .table _ => true
  | .function _ => true
  | _ => false

/-- The object address carried by a heap-tagged value. -/
def Value.objAddr : Value → Option Nat
  | .table a => some a
  | .function a => some a
  | _ => none

/-- str(Value::Type). -/
def Value.typeName : Value → String
  | .nil => "NIL"
  | .integer _ => "INTEGER"
  | .table _ => "TABLE"
  | .function _ => "FUNCTION"

/-- A managed heap object: Table (proto pointer plus mapping) or
Function (captured environment plus blob). The mapping is kept in insertion
order; only key lookup and the set of entries are ever observed. Blob
pointers are modelled as indices into the compiled program's blob list. -/
inductive Obj where
  | table (proto : Option Nat) (mapping : List (Ident × Value))
  | function (env : Nat) (blob : Nat)
deriving DecidableEq

/-- allManagedObjects together with each object's current state: the heap. -/
abbrev Heap := List (Nat × Obj)

/-- Dereference an address. none models a freed (dangling) pointer. -/
def lookupObj : Heap → Nat → Option Obj
  | [], _ => none
  | (a, o) :: h, x => if a = x then some o else lookupObj h x

/-- Mutate the object stored at an address in place. -/
def updateObj : Heap → Nat → Obj → Heap
  | [], _, _ => []
  | (a, o) :: h, x, o' => if a = x then (a, o') :: h else (a, o) :: updateObj h x o'

/-- std::map lookup on a table's mapping (keys are interned identifiers). -/
def mapLookup : List (Ident × Value) → Ident → Option Value
  | [], _ => none
  | (k, v) :: m, x => if k = x then some v else mapLookup m x

/-- Table::get: search the own mapping, else recurse into the proto chain;
"No such name" when the chain runs out. The chain is walked with fuel
(one heap object per hop in any actual state); exhaustion and a dangling
proto both surface as the dangling-reference error. -/
def tableGet (h : Heap) : Nat → Ident → Nat → Except String Value
  | _, _, 0 => .error "dangling object reference"
  | a, key, fuel+1 =>
    match lookupObj h a with
    | some (.table proto m) =>
      match mapLookup m key with
      | some v => .ok v
      | none =>
        match proto with
        | none => .error ("No such name " ++ key)
        | some p => tableGet h p key fuel
    | _ => .error "dangling object reference"

/-- Table::declare: fail "Already declared name" if the key is present in
the own mapping, otherwise insert the binding. -/
def tableDeclare (h : Heap) (a : Nat) (key : Ident) (v : Value) : Except String Heap :=
  match lookupObj h a with
  | some (.table proto m) =>
    match mapLookup m key with
    | none => .ok (updateObj h a (.table proto (m ++ [(key, v)])))
    | some _ => .error ("Already declared name " ++ key)
  | _ => .error "dangling object reference"

/-- Instruction: opcode plus the payload slot used by that opcode. -/
inductive Instr where
  | pushNil
  | pushVariable (name : Ident)
  | pushInteger (i : Int)
  | pushFunction (blob : Nat)
  | declareVariable (name : Ident)
  | blockStart
  | blockEnd
  | ifJump (target : Int)
  | elseJump (target : Int)
  | pop
  | call (nargs : Int)
  | tailcall (nargs : Int)
  | debugPrint
  | invalid
deriving DecidableEq

/-- Blob: parameter names plus the instruction list. -/
structure Blob where
  args : List Ident
  instructions : List Instr
deriving DecidableEq

/-- The compiled program: all blobs ever created, indexed by allocation
order (blob pointers become indices into this list). -/
structure Program where
  blobs : List Blob
deriving DecidableEq

/-- ProgramCounter: blob pointer and index. The index is a C++ long. -/
structure PC where
  blob : Nat
  index : Int
deriving DecidableEq

def Program.blobAt (p : Program) (b : Nat) : Blob := p.blobs.getD b ⟨[], []⟩

/-- ProgramCounter::done: static_cast of the index to unsigned long is at
least the instruction count. A negative index wraps around to a huge
unsigned value, hence counts as done. -/
def pcDone (prog : Program) (pc : PC) : Bool :=
  decide (pc.index < 0) || decide (((prog.blobAt pc.blob).instructions.length : Int) ≤ pc.index)

/-- ProgramCounter::get (only evaluated when not done). -/
def pcGet (prog : Program) (pc : PC) : Instr :=
  (prog.blobAt pc.blob).instructions.getD pc.index.toNat .invalid

def PC.incr (pc : PC) : PC := ⟨pc.blob, pc.index + 1⟩

def PC.move (pc : PC) (i : Int) : PC := ⟨pc.blob, i⟩

/-- The VirtualMachine state. All three stacks keep their top element at the
head of the list (vector back() in the source). DEBUG_PRINT lines are
accumulated in `output` in emission order. -/
structure VMState where
  heap : Heap
  nextAddr : Nat
  evalstack : List Value
  retstack : List PC
  envstack : List Nat
  pc : PC
  threshold : Int
  output : List String
deriving DecidableEq

/-- VirtualMachine::make: allocate an object, register it in
allManagedObjects, return its address. -/
def VMState.alloc (s : VMState) (o : Obj) : Nat × VMState :=
  (s.nextAddr, { s with heap := s.heap ++ [(s.nextAddr, o)], nextAddr := s.nextAddr + 1 })

/-- The addresses an object's traverse callback visits.
Table::traverse visits the object-tagged values of the mapping and does NOT
visit the proto pointer; Function::traverse visits the captured environment. -/
def Obj.children : Obj → List Nat
  | .table _ m => m.filterMap (fun kv => kv.2.objAddr)
  | .function env _ => [env]

/-- traverse of the object at an address; a dangling address (impossible via
this traversal in reachable states) contributes nothing. -/
def childAddrs (h : Heap) (a : Nat) : List Nat :=
  match lookupObj h a with
  | some o => o.children
  | none => []

/-- One visit of the mark phase: count a unit of work, and if the object is
still WHITE (not in the black set) paint it BLACK and push it on the grey
stack. Objects are all WHITE on entry to a collection (they are born WHITE
and the sweep repaints survivors WHITE), so the BLACK set built during one
collection models the colors exactly. -/
def visitMark (acc : List Nat × List Nat × Nat) (q : Nat) : List Nat × List Nat × Nat :=
  let (black, grey, work) := acc
  let work := work + 1
  if q ∈ black then (black, grey, work) else (q :: black, q :: grey, work)

/-- A root visit for a value on the evalstack: one unit of work per value;
only object-tagged values are marked. -/
def visitValueRoot (acc : List Nat × List Nat × Nat) (v : Value) : List Nat × List Nat × Nat :=
  match v.objAddr with
  | some a => visitMark acc a
  | none => let (black, grey, work) := acc; (black, grey, work + 1)

/-- Total length of all traverse lists: an upper bound on the number of grey
pushes the trace loop can still perform. -/
def sumChildren (h : Heap) : Nat := (h.map (fun p => p.2.children.length)).sum

/-- Every address that occurs in some object's traverse list. -/
def allChildren (h : Heap) : List Nat := (h.map (fun p => p.2.children)).flatten

/-- The trace loop: pop a grey object, visit its children, repeat until the
grey stack is empty. Structured with fuel; the caller passes enough fuel
that the loop always drains the grey stack (see markLoop_fuel). -/
def markLoop (h : Heap) : Nat → List Nat → List Nat → Nat → List Nat × Nat
  | 0, _, black, work => (black, work)
  | _+1, [], black, work => (black, work)
  | fuel+1, p :: grey, black, work =>
    let acc := (childAddrs h p).foldl visitMark (black, grey, work)
    markLoop h fuel acc.2.1 acc.1 acc.2.2

/-- VirtualMachine::markAndSweep, also returning the workDone counter:
mark the evalstack and envstack roots, trace, sweep the managed-object list
(deleting WHITE objects, keeping the rest in order), and set
threshold := 3 * workDone. -/
def markAndSweepW (s : VMState) : VMState × Nat :=
  let acc0 := s.evalstack.foldl visitValueRoot (([] : List Nat), ([] : List Nat), 0)
  let acc1 := s.envstack.foldl visitMark acc0
  let fuel := acc1.2.1.length + sumChildren s.heap + 1
  let res := markLoop s.heap fuel acc1.2.1 acc1.1 acc1.2.2
  let survivors := s.heap.filter (fun p => decide (p.1 ∈ res.1))
  let workF := res.2 + s.heap.length
  ({ s with heap := survivors, threshold := 3 * (workF : Int) }, workF)

def markAndSweep (s : VMState) : VMState := (markAndSweepW s).1

/-- VirtualMachine::stepGc: run a full collection when the managed-object
count has reached the threshold. (The threshold is cast to unsigned long in
the comparison; it is never negative, a negative value would never trigger.) -/
def stepGc (s : VMState) : VMState :=
  if 0 ≤ s.threshold ∧ s.threshold ≤ (s.heap.length : Int) then markAndSweep s else s

/-- MODE_GC: DEBUG runs a full markAndSweep before every bytecode step,
PROD only checks the threshold. The source fixes MODE_GC = DEBUG at compile
time. -/
inductive Mode where
  | debug
  | prod
deriving DecidableEq

def gcPhase : Mode → VMState → VMState
  | .debug, s => markAndSweep s
  | .prod, s => stepGc s

/-- Result of one loop iteration or of an instruction handler. err carries
the thrown diagnostic together with the VM state at the throw point (the
C++ error() throws; the VirtualMachine object keeps all mutations already
performed). -/
inductive StepRes where
  | ok (s : VMState)
  | err (msg : String) (s : VMState)
deriving DecidableEq

/-- CALL argument binding: for j in 0..nargs, declare blob.args[j] to the
j-th argument counted from the bottom of the n pushed arguments. On an
"Already declared" failure the heap mutations performed so far are kept. -/
def bindArgs (h : Heap) (env : Nat) : List Ident → List Value → Except (String × Heap) Heap
  | [], _ => .ok h
  | p :: ps, v :: vs =>
    match tableDeclare h env p v with
    | .ok h' => bindArgs h' env ps vs
    | .error msg => .error (msg, h)
  | _ :: _, [] => .error ("stack underflow", h)

/-- One instruction handler of VirtualMachine::run's dispatch switch.
Stack accesses that would underflow are undefined behaviour in the source
and are modelled as a "stack underflow" error; they are unreachable on
compiled programs. -/
def execInstr (prog : Program) (s : VMState) (i : Instr) : StepRes :=
  match i with
  | .invalid => .err "Invalid instruction" s
  | .pushNil => .ok { s with evalstack := .nil :: s.evalstack, pc := s.pc.incr }
  | .debugPrint =>
    match s.evalstack with
    | [] => .err "stack underflow" s
    | v :: _ =>
      let line := v.typeName ++ (match v with | .integer n => "(" ++ toString n ++ ")" | _ => "")
      .ok { s with output := s.output ++ [line], pc := s.pc.incr }
  | .pushInteger n => .ok { s with evalstack := .integer n :: s.evalstack, pc := s.pc.incr }
  | .pop =>
    match s.evalstack with
    | [] => .err "stack underflow" s
    | _ :: rest => .ok { s with evalstack := rest, pc := s.pc.incr }
  | .blockStart =>
    match s.envstack with
    | [] => .err "stack underflow" s
    | cur :: _ =>
      let (a, s') := s.alloc (.table (some cur) [])
      .ok { s' with envstack := a :: s'.envstack, pc := s'.pc.incr }
  | .blockEnd =>
    match s.envstack with
    | [] => .err "stack underflow" s
    | _ :: rest => .ok { s with envstack := rest, pc := s.pc.incr }
  | .declareVariable name =>
    match s.envstack, s.evalstack with
    | env :: _, v :: _ =>
      match tableDeclare s.heap env name v with
      | .ok h' => .ok { s with heap := h', pc := s.pc.incr }
      | .error msg => .err msg s
    | _, _ => .err "stack underflow" s
  | .pushVariable name =>
    match s.envstack with
    | [] => .err "stack underflow" s
    | env :: _ =>
      match tableGet s.heap env name (s.heap.length + 1) with
      | .ok v => .ok { s with evalstack := v :: s.evalstack, pc := s.pc.incr }
      | .error msg => .err msg s
  | .ifJump target =>
    match s.evalstack with
    | [] => .err "stack underflow" s
    | v :: rest =>
      let pc' := if v.truthy then s.pc.incr else s.pc.move target
      .ok { s with evalstack := rest, pc := pc' }
  | .elseJump target => .ok { s with pc := s.pc.move target }
  | .pushFunction bidx =>
    match s.envstack with
    | [] => .err "stack underflow" s
    | cur :: _ =>
      let (a, s') := s.alloc (.function cur bidx)
      .ok { s' with evalstack := .function a :: s'.evalstack, pc := s'.pc.incr }
  | .call nargs =>
    match s.evalstack with
    | [] => .err "stack underflow" s
    | v :: rest =>
      match v with
      | .function faddr =>
        match lookupObj s.heap faddr with
        | some (.function fenv fblob) =>
          let retpc := s.pc.incr
          let s₁ := { s with pc := retpc, retstack := retpc :: s.retstack, evalstack := rest }
          let (ea, s₂) := s₁.alloc (.table (some fenv) [])
          let s₃ := { s₂ with envstack := ea :: s₂.envstack }
          let params := (prog.blobAt fblob).args
          if (nargs : Int) ≠ (params.length : Int) then
            .err ("Expected " ++ toString params.length ++ " args but got " ++ toString nargs) s₃
          else
            match bindArgs s₃.heap ea params ((s₃.evalstack.take params.length).reverse) with
            | .error (msg, h') => .err msg { s₃ with heap := h' }
            | .ok h' =>
              .ok { s₃ with
                    heap := h'
                    evalstack := s₃.evalstack.drop params.length
                    pc := ⟨fblob, 0⟩ }
        | _ => .err "dangling object reference" s
      | _ => .err ("Not calllable: " ++ v.typeName) s
  | .tailcall _ => .err "Not yet implemented" s

/-- The run() loop exit condition: retstack empty and pc done. -/
def isFinal (prog : Program) (s : VMState) : Bool :=
  s.retstack.isEmpty && pcDone prog s.pc

/-- One iteration of the run() while-loop body (called only on non-final
states): the GC step, then either a return (pop retstack and envstack) or
the fetched instruction's handler. -/
def stepIter (prog : Program) (mode : Mode) (s : VMState) : StepRes :=
  let s₁ := gcPhase mode s
  if pcDone prog s₁.pc then
    match s₁.retstack, s₁.envstack with
    | r :: rs, _ :: es => .ok { s₁ with pc := r, retstack := rs, envstack := es }
    | _, _ => .err "stack underflow" s₁
  else
    execInstr prog s₁ (pcGet prog s₁.pc)

/-- Outcome of running the loop with fuel: normal termination, a thrown
diagnostic, or fuel exhaustion. -/
inductive RunRes where
  | done (s : VMState)
  | err (msg : String) (s : VMState)
  | out (s : VMState)
deriving DecidableEq

/-- VirtualMachine::run, iterated with fuel (one unit per loop iteration). -/
def runFuel (prog : Program) (mode : Mode) : Nat → VMState → RunRes
  | 0, s => .out s
  | fuel+1, s =>
    if isFinal prog s then .done s
    else
      match stepIter prog mode s with
      | .ok s' => runFuel prog mode fuel s'
      | .err m s' => .err m s'

/-- The VirtualMachine constructor: one root environment made with make
(address 0), threshold 1000, pc at the start of the main blob. -/
def initState : VMState :=
  { heap := [(0, .table none [])], nextAddr := 1, evalstack := [], retstack := [],
    envstack := [0], pc := ⟨0, 0⟩, threshold := 1000, output := [] }

def RunRes.outputOf : RunRes → Option (List String)
  | .done s => some s.output
  | _ => none

def RunRes.errOf : RunRes → Option String
  | .err m _ => some m
  | _ => none

def RunRes.stateOf : RunRes → Option VMState
  | .done s => some s
  | _ => none

/-- Expression trees as produced by the builder functions (nilexpr, intexpr,
funcexpr, declexpr, callexpr, varexpr, blockexpr, ifexpr, printexpr). -/
inductive Expr where
  | nil
  | int (i : Int)
  | var (name : Ident)
  | lambda (params : List Ident) (body : Expr)
  | decl (name : Ident) (init : Expr)
  | call (callee : Expr) (args : List Expr)
  | ifE (cond thenE elseE : Expr)
  | block (children : List Expr)
  | print (child : Expr)

mutual

/-- Expression::compile(Blob&): append this expression's code to the
instruction list under construction. `blobs` is the global list of blob
slots in allocation order; a LAMBDA allocates a fresh slot, compiles its
body into a fresh instruction list, and fills the slot. IF emits the two
placeholder jumps (their operand is uninitialized in the source, 0 here)
and patches both operands afterwards. -/
def compileE : Expr → List Instr → List (Option Blob) → List Instr × List (Option Blob)
  | .nil, cur, blobs => (cur ++ [.pushNil], blobs)
  | .int i, cur, blobs => (cur ++ [.pushInteger i], blobs)
  | .var n, cur, blobs => (cur ++ [.pushVariable n], blobs)
  | .lambda params body, cur, blobs =>
    let k := blobs.length
    let res := compileE body [] (blobs ++ [none])
    (cur ++ [.pushFunction k], res.2.set k (some ⟨params, res.1⟩))
  | .decl n init, cur, blobs =>
    let res := compileE init cur blobs
    (res.1 ++ [.declareVariable n], res.2)
  | .call f args, cur, blobs =>
    let res₁ := compileSeq args cur blobs
    let res₂ := compileE f res₁.1 res₁.2
    (res₂.1 ++ [.call (args.length : Int)], res₂.2)
  | .ifE c t f, cur, blobs =>
    let resc := compileE c cur blobs
    let ifpos := resc.1.length
    let rest := compileE t (resc.1 ++ [.ifJump 0]) resc.2
    let elsepos := rest.1.length
    let resf := compileE f (rest.1 ++ [.elseJump 0]) rest.2
    (((resf.1.set ifpos (.ifJump ((elsepos : Int) + 1))).set elsepos
        (.elseJump (resf.1.length : Int))), resf.2)
  | .block cs, cur, blobs =>
    match cs with
    | [] => (cur ++ [.pushNil], blobs)
    | c :: rest =>
      let res := compileBlock c rest (cur ++ [.blockStart]) blobs
      (res.1 ++ [.blockEnd], res.2)
  | .print c, cur, blobs =>
    let res := compileE c cur blobs
    (res.1 ++ [.debugPrint], res.2)
termination_by e _ _ => sizeOf e
decreasing_by all_goals (simp_wf <;> omega)

/-- CALL compiles the arguments left to right (children[1..]) before the
callee (children[0]). -/
def compileSeq : List Expr → List Instr → List (Option Blob) → List Instr × List (Option Blob)
  | [], cur, blobs => (cur, blobs)
  | c :: rest, cur, blobs =>
    let res := compileE c cur blobs
    compileSeq rest res.1 res.2
termination_by cs _ _ => sizeOf cs
decreasing_by all_goals (simp_wf <;> omega)

/-- BLOCK compiles every child but the last followed by POP, then the last
child. -/
def compileBlock : Expr → List Expr → List Instr → List (Option Blob) →
    List Instr × List (Option Blob)
  | c, [], cur, blobs => compileE c cur blobs
  | c, c' :: rest, cur, blobs =>
    let res := compileE c cur blobs
    compileBlock c' rest (res.1 ++ [.pop]) res.2
termination_by c rest _ _ => 1 + sizeOf c + sizeOf rest
decreasing_by all_goals (simp_wf <;> omega)

end

/-- Expression::compile(): allocate the main blob (slot 0), compile into it,
and return the completed program. All slots are filled when compilation
finishes; the default for a hypothetical unfilled slot is the empty blob. -/
def compileProgram (e : Expr) : Program :=
  let res := compileE e [] [none]
  ⟨(res.2.set 0 (some ⟨[], res.1⟩)).map (fun ob => ob.getD ⟨[], []⟩)⟩

/-- Run a compiled expression from the freshly constructed VM. -/
def runExpr (mode : Mode) (fuel : Nat) (e : Expr) : RunRes :=
  runFuel (compileProgram e) mode fuel initState

/-- Scenario 1: block(print(int 124124), print(int 7)). -/
def scenario1 : Expr := .block [.print (.int 124124), .print (.int 7)]

/-- Scenario 2: block(print(if(nil, int 11111, int 222222))). -/
def scenario2 : Expr := .block [.print (.ifE .nil (.int 11111) (.int 222222))]

/-- Scenario 3: block(declare(x, int 55371), print(var x)). -/
def scenario3 : Expr := .block [.decl "x" (.int 55371), .print (.var "x")]

/-- Scenario 4: block(declare(f, lambda([a], block(print(var a)))),
call(var f, [int 777777]), call(var f, [int 9999999999]), print(nil)). -/
def scenario4 : Expr :=
  .block [.decl "f" (.lambda ["a"] (.block [.print (.var "a")])),
          .call (.var "f") [.int 777777],
          .call (.var "f") [.int 9999999999],
          .print .nil]

/-- Scenario 5 (closure capture): block(declare(mk, lambda([x], lambda([],
print(var x)))), call(call(var mk, [int 42]), [])). -/
def scenario5 : Expr :=
  .block [.decl "mk" (.lambda ["x"] (.lambda [] (.print (.var "x")))),
          .call (.call (.var "mk") [.int 42]) []]

/-- The references an object actually holds, per the object layout: a Table
holds its proto pointer and the object-tagged values of its mapping, a
Function holds its captured environment. (Contrast Obj.children, the set
the traverse methods visit.) -/
def Obj.refs : Obj → List Nat
  | .table proto m => proto.toList ++ m.filterMap (fun kv => kv.2.objAddr)
  | .function env _ => [env]

/-- The GC roots of a state: object-tagged values on the value stack and
every environment on the environment stack. -/
def rootAddrs (s : VMState) : List Nat :=
  s.evalstack.filterMap Value.objAddr ++ s.envstack

/-- Reachability from the VM roots through the references objects hold. -/
inductive Reachable (s : VMState) : Nat → Prop
  | root (a : Nat) : a ∈ rootAddrs s → Reachable s a
  | step (a b : Nat) (o : Obj) : Reachable s a → lookupObj s.heap a = some o →
      b ∈ o.refs → Reachable s b

/-- A state in which an environment is reachable only through the proto
pointer of the current environment: address 0 is the parent of the sole
environment on the envstack. Such states arise at a CALL whose callee
closure was a temporary (scenario 5). -/
def protoOnlyState : VMState :=
  { heap := [(0, .table none []), (1, .table (some 0) [])], nextAddr := 2, evalstack := [],
    retstack := [], envstack := [1], pc := ⟨0, 0⟩, threshold := 1000, output := [] }

mutual

/-- Number of blobs allocated while compiling an expression. -/
def nb : Expr → Nat
  | .lambda _ body => 1 + nb body
  | .decl _ e => nb e
  | .print e => nb e
  | .call f args => nbList args + nb f
  | .ifE c t f => nb c + nb t + nb f
  | .block cs => nbList cs
  | _ => 0

def nbList : List Expr → Nat
  | [] => 0
  | e :: es => nb e + nbList es

end

mutual

/-- The instructions compileE appends for an expression, as a function of
the instruction offset i at which they are placed and the index k of the
next blob slot to be allocated (see compileE_emit). -/
def emit : Expr → Nat → Nat → List Instr
  | .nil, _, _ => [.pushNil]
  | .int n, _, _ => [.pushInteger n]
  | .var n, _, _ => [.pushVariable n]
  | .lambda _ _, _, k => [.pushFunction k]
  | .decl n e, i, k => emit e i k ++ [.declareVariable n]
  | .print e, i, k => emit e i k ++ [.debugPrint]
  | .call f args, i, k =>
    let ac := emitSeq args i k
    let fc := emit f (i + ac.length) (k + nbList args)
    ac ++ fc ++ [.call (args.length : Int)]
  | .ifE c t f, i, k =>
    let cc := emit c i k
    let ip := i + cc.length
    let tc := emit t (ip + 1) (k + nb c)
    let ep := ip + 1 + tc.length
    let fc := emit f (ep + 1) (k + nb c + nb t)
    cc ++ [.ifJump ((ep : Int) + 1)] ++ tc ++ [.elseJump ((ep + 1 + fc.length : Nat) : Int)] ++ fc
  | .block [], _, _ => [.pushNil]
  | .block (c :: cs), i, k => .blockStart :: emitBlock c cs (i + 1) k ++ [.blockEnd]
termination_by e _ _ => sizeOf e
decreasing_by all_goals (simp_wf <;> omega)

def emitSeq : List Expr → Nat → Nat → List Instr
  | [], _, _ => []
  | e :: es, i, k =>
    let c := emit e i k
    c ++ emitSeq es (i + c.length) (k + nb e)
termination_by cs _ _ => sizeOf cs
decreasing_by all_goals (simp_wf <;> omega)

def emitBlock : Expr → List Expr → Nat → Nat → List Instr
  | c, [], i, k => emit c i k
  | c, c' :: rest, i, k =>
    let cc := emit c i k
    cc ++ [.pop] ++ emitBlock c' rest (i + cc.length + 1) (k + nb c)
termination_by c rest _ _ => 1 + sizeOf c + sizeOf rest
decreasing_by all_goals (simp_wf <;> omega)

end

mutual

/-- The blobs compileE allocates for an expression, in slot order, given
the index k of the next free slot. -/
def blobsOf : Expr → Nat → List Blob
  | .lambda ps body, k => ⟨ps, emit body 0 (k + 1)⟩ :: blobsOf body (k + 1)
  | .decl _ e, k => blobsOf e k
  | .print e, k => blobsOf e k
  | .call f args, k => blobsOfList args k ++ blobsOf f (k + nbList args)
  | .ifE c t f, k => blobsOf c k ++ blobsOf t (k + nb c) ++ blobsOf f (k + nb c + nb t)
  | .block cs, k => blobsOfList cs k
  | _, _ => []

def blobsOfList : List Expr → Nat → List Blob
  | [], _ => []
  | e :: es, k => blobsOf e k ++ blobsOfList es (k + nb e)

end

mutual

/-- Length of the code compiled for an expression (independent of where it
is placed). -/
def codeLen : Expr → Nat
  | .nil => 1
  | .int _ => 1
  | .var _ => 1
  | .lambda _ _ => 1
  | .decl _ e => codeLen e + 1
  | .print e => codeLen e + 1
  | .call f args => codeLenList args + codeLen f + 1
  | .ifE c t f => codeLen c + 1 + codeLen t + 1 + codeLen f
  | .block [] => 1
  | .block (c :: cs) => 1 + codeLenBlock c cs + 1
termination_by e => sizeOf e
decreasing_by all_goals (simp_wf <;> omega)

def codeLenList : List Expr → Nat
  | [] => 0
  | e :: es => codeLen e + codeLenList es
termination_by es => sizeOf es
decreasing_by all_goals (simp_wf <;> omega)

def codeLenBlock : Expr → List Expr → Nat
  | c, [] => codeLen c
  | c, c' :: rest => codeLen c + 1 + codeLenBlock c' rest
termination_by c rest => 1 + sizeOf c + sizeOf rest
decreasing_by all_goals (simp_wf <;> omega)

end

/-- The instructions of blob b contain `code` as the segment starting at
index i. -/
def SegAt (prog : Program) (b i : Nat) (code : List Instr) : Prop :=
  ∃ pre post, (prog.blobAt b).instructions = pre ++ code ++ post ∧ pre.length = i

/-- The blob list holds `bs` at consecutive indices starting at k. -/
def Placed (prog : Program) (k : Nat) (bs : List Blob) : Prop :=
  ∀ j, j < bs.length → prog.blobAt (k + j) = bs.getD j ⟨[], []⟩

/-- Blob index bidx holds the compiled body of some expression, with its
nested blobs placed after slot k. -/
def BlobOK (prog : Program) (bidx : Nat) : Prop :=
  ∃ ps body k, prog.blobAt bidx = ⟨ps, emit body 0 k⟩ ∧ Placed prog k (blobsOf body k)

/-- A heap-tagged value points at a live object of the matching kind. -/
def LiveVal (h : Heap) : Value → Prop
  | .table a => ∃ pr m, lookupObj h a = some (.table pr m)
  | .function a => ∃ env bi, lookupObj h a = some (.function env bi)
  | _ => True

/-- Heap well-formedness: every live closure's blob is compiled code of the
program, and every live environment's mapping holds only live object
references. (Proto pointers are deliberately NOT constrained: the collector
does not keep them alive.) -/
def HeapWF (prog : Program) (h : Heap) : Prop :=
  (∀ a env bi, lookupObj h a = some (.function env bi) → BlobOK prog bi) ∧
  (∀ a pr m, lookupObj h a = some (.table pr m) → ∀ kv ∈ m, LiveVal h kv.2)

/-- State well-formedness: well-formed heap, live environments on the
envstack, live values on the evalstack, heap addresses below the allocation
counter and pairwise distinct. -/
def StateWF (prog : Program) (s : VMState) : Prop :=
  HeapWF prog s.heap ∧
  (∀ a ∈ s.envstack, ∃ pr m, lookupObj s.heap a = some (.table pr m)) ∧
  (∀ v ∈ s.evalstack, LiveVal s.heap v) ∧
  (∀ p ∈ s.heap, p.1 < s.nextAddr) ∧
  (s.heap.map Prod.fst).Nodup

/-- n successful iterations of the run() loop, each from a non-final state. -/
inductive StepsN (prog : Program) (mode : Mode) : Nat → VMState → VMState → Prop where
  | zero (s : VMState) : StepsN prog mode 0 s s
  | more {s s' s'' : VMState} {n : Nat} : isFinal prog s = false →
      stepIter prog mode s = .ok s' → StepsN prog mode n s' s'' →
      StepsN prog mode (n + 1) s s''

/-- The big-step property of one compiled expression: on any terminating
run, control passes through the end of the expression's code segment
having pushed exactly one value, with the environment and return stacks
restored and well-formedness intact. -/
def FrameStmt (n : Nat) (e : Expr) : Prop :=
  ∀ (prog : Program) (mode : Mode) (s sf : VMState) (b i k : Nat),
    StepsN prog mode n s sf → isFinal prog sf = true →
    s.pc = ⟨b, (i : Int)⟩ →
    SegAt prog b i (emit e i k) →
    Placed prog k (blobsOf e k) →
    StateWF prog s →
    s.envstack ≠ [] →
    ∃ m s' v, m ≤ n ∧ 1 ≤ m ∧ StepsN prog mode m s s' ∧ StepsN prog mode (n - m) s' sf ∧
      s'.pc = ⟨b, ((i + (emit e i k).length : Nat) : Int)⟩ ∧
      s'.evalstack = v :: s.evalstack ∧
      s'.envstack = s.envstack ∧
      s'.retstack = s.retstack ∧
      StateWF prog s'

/-- The final state of the minimal program int 5 (used to instantiate the
universally quantified termination theorems on a concrete run). -/
def finalIntFive : VMState :=
  { heap := [(0, .table none [])], nextAddr := 1, evalstack := [.integer 5], retstack := [],
    envstack := [0], pc := ⟨0, 1⟩, threshold := 1000, output := [] }

/-- The VM state a handler leaves behind, whether it returned or threw. -/
def StepRes.state : StepRes → VMState
  | .ok s => s
  | .err _ s => s

/-- The heap the argument-binding loop leaves behind, whether it completed
or threw. -/
def heapOfBind : Except (String × Heap) Heap → Heap
  | .ok h => h
  | .error (_, h) => h

/-- A state about to execute CALL 0 where the callee closure's captured
environment (address 1) differs from the caller's current environment
(address 0): heap holds the root, a second environment, and a closure of
blob 1 over environment 1. -/
def capturedEnvState : VMState :=
  { heap := [(0, .table none []), (1, .table (some 0) []), (2, .function 1 1)], nextAddr := 3,
    evalstack := [.function 2], retstack := [], envstack := [0], pc := ⟨0, 0⟩,
    threshold := 1000, output := [] }

theorem lookupObj_append_fresh (h : Heap) (a : Nat) (o : Obj) (hf : ∀ p ∈ h, p.1 ≠ a) :
    lookupObj (h ++ [(a, o)]) a = some o := by
  induction h with
  | nil => simp [lookupObj]
  | cons p t ih =>
    obtain ⟨b, ob⟩ := p
    have hb : b ≠ a := hf (b, ob) (List.mem_cons_self _ _)
    simp only [List.cons_append, lookupObj, if_neg hb]
    exact ih (fun q hq => hf q (List.mem_cons_of_mem _ hq))

theorem lookupObj_update_self (h : Heap) (a : Nat) (o₀ o : Obj)
    (hl : lookupObj h a = some o₀) : lookupObj (updateObj h a o) a = some o := by
  induction h with
  | nil => simp [lookupObj] at hl
  | cons p t ih =>
    obtain ⟨b, ob⟩ := p
    by_cases hb : b = a
    · simp [updateObj, lookupObj, hb]
    · simp only [lookupObj, if_neg hb] at hl
      simp only [updateObj, if_neg hb, lookupObj, if_neg hb]
      exact ih hl

/-- Binding call arguments into the fresh environment never changes its
proto pointer, whether binding completes or throws part way. -/
theorem bindArgs_proto (ps : List Ident) (vs : List Value) (h : Heap) (env : Nat)
    (pr : Option Nat) (m₀ : List (Ident × Value))
    (hl : lookupObj h env = some (.table pr m₀)) :
    ∃ m', lookupObj (heapOfBind (bindArgs h env ps vs)) env = some (.table pr m') := by
  induction ps generalizing vs h m₀ with
  | nil => exact ⟨m₀, by simpa [bindArgs, heapOfBind] using hl⟩
  | cons p pt ih =>
    cases vs with
    | nil => exact ⟨m₀, by simpa [bindArgs, heapOfBind] using hl⟩
    | cons v vt =>
      simp only [bindArgs]
      rcases hm : mapLookup m₀ p with _ | w
      · have hdec : tableDeclare h env p v =
            .ok (updateObj h env (.table pr (m₀ ++ [(p, v)]))) := by
          simp [tableDeclare, hl, hm]
        rw [hdec]
        exact ih vt _ _ (lookupObj_update_self h env _ _ hl)
      · have hdec : tableDeclare h env p v = .error ("Already declared name " ++ p) := by
          simp [tableDeclare, hl, hm]
        rw [hdec]
        exact ⟨m₀, by simpa [heapOfBind] using hl⟩

/-- claim C1. No heap object reachable from the VM roots at the start of a
collection is supposed to be destroyed; but in a state whose current
environment has a parent reachable only through the proto pointer, the
parent (address 0) is reachable yet markAndSweep deletes it, because
Table::traverse never visits the proto pointer. -/
theorem claim1_reachable_environment_swept :
    Reachable protoOnlyState 0 ∧ lookupObj (markAndSweep protoOnlyState).heap 0 = none :=
  ⟨Reachable.step 1 0 (.table (some 0) []) (Reachable.root 1 (by decide)) (by decide)
    (by decide), by decide⟩

/-- claim C2, counterexample. Collecting from the freshly constructed VM
does 2 units of work (one envstack root, one sweep visit) and sets the
threshold to exactly 6 = 3·2: no positive constant C is added. -/
theorem claim2_counterexample :
    (markAndSweepW initState).2 = 2 ∧ (markAndSweepW initState).1.threshold = 6 ∧
      ¬ ∃ C : Int, 0 < C ∧ (markAndSweepW initState).1.threshold =
        3 * ((markAndSweepW initState).2 : Int) + C := by
  refine ⟨by decide, by decide, ?_⟩
  rintro ⟨C, hC, h⟩
  rw [show (markAndSweepW initState).1.threshold = 6 from by decide,
    show (markAndSweepW initState).2 = 2 from by decide] at h
  omega

/-- claim C2, amended. After every full collection the threshold is exactly
3·w where w is the number of object-visits performed during mark and sweep
(no additive constant in the virtual machine of x.cc). -/
theorem claim2_threshold_is_three_times_work (s : VMState) :
    (markAndSweep s).threshold = 3 * ((markAndSweepW s).2 : Int) := rfl

/-- claim C3. Executing CALL creates a fresh environment whose parent is
the closure's captured environment, not the caller's current environment
(shown on a state where the two differ); but the closure-capture program of
scenario 5 does not run to completion under the compiled-in DEBUG GC mode:
the collector frees the captured environment (proto pointers are not
traversed) and the variable lookup dereferences a dangling environment.
Under the threshold-based PROD mode the same program prints INTEGER(42). -/
theorem claim3_lexical_scope_and_closure_capture :
    (∃ t, execInstr ⟨[⟨[], [.call 0]⟩, ⟨[], []⟩]⟩ capturedEnvState (.call 0) = .ok t ∧
      t.envstack = 3 :: capturedEnvState.envstack ∧
      lookupObj t.heap 3 = some (.table (some 1) []) ∧
      capturedEnvState.envstack.headI = 0) ∧
    (runExpr .debug 100 scenario5).errOf = some "dangling object reference" ∧
    (runExpr .debug 100 scenario5).outputOf = none ∧
    (runExpr .prod 100 scenario5).outputOf = some ["INTEGER(42)"] := by
  have h5 : compileProgram scenario5 = ⟨[⟨[], [.blockStart, .pushFunction 1,
      .declareVariable "mk", .pop, .pushInteger 42, .pushVariable "mk", .call 1, .call 0,
      .blockEnd]⟩, ⟨["x"], [.pushFunction 2]⟩, ⟨[], [.pushVariable "x", .debugPrint]⟩]⟩ := by
    simp [compileProgram, scenario5, compileE, compileSeq, compileBlock]
  refine ⟨⟨{ heap := [(0, .table none []), (1, .table (some 0) []), (2, .function 1 1),
               (3, .table (some 1) [])],
             nextAddr := 4, evalstack := [], retstack := [⟨0, 1⟩],
             envstack := [3, 0], pc := ⟨1, 0⟩, threshold := 1000, output := [] },
    by decide, by decide, by decide, by decide⟩, ?_, ?_, ?_⟩
  · show (runFuel (compileProgram scenario5) .debug 100 initState).errOf = _
    rw [h5]; decide
  · show (runFuel (compileProgram scenario5) .debug 100 initState).outputOf = _
    rw [h5]; decide
  · show (runFuel (compileProgram scenario5) .prod 100 initState).outputOf = _
    rw [h5]; decide

/-- claim C7. DECLARE_VARIABLE binds the top of the value stack in the
current environment without popping: the value stack (and everything except
the heap binding and the pc) is unchanged, so a declaration still evaluates
to its initializer's value. -/
theorem claim7_declare_binds_without_pop (prog : Program) (s : VMState) (name : Ident)
    (env : Nat) (es : List Nat) (v : Value) (vs : List Value)
    (pr : Option Nat) (m : List (Ident × Value))
    (henv : s.envstack = env :: es) (heval : s.evalstack = v :: vs)
    (hlk : lookupObj s.heap env = some (.table pr m)) (hml : mapLookup m name = none) :
    execInstr prog s (.declareVariable name) =
      .ok { s with heap := updateObj s.heap env (.table pr (m ++ [(name, v)])),
                   pc := s.pc.incr } ∧
    ∀ t, execInstr prog s (.declareVariable name) = .ok t →
      t.evalstack = s.evalstack ∧
      lookupObj t.heap env = some (.table pr (m ++ [(name, v)])) := by
  have hx : execInstr prog s (.declareVariable name) =
      .ok { s with heap := updateObj s.heap env (.table pr (m ++ [(name, v)])),
                   pc := s.pc.incr } := by
    simp [execInstr, henv, heval, tableDeclare, hlk, hml]
  refine ⟨hx, fun t ht => ?_⟩
  rw [hx] at ht
  cases ht
  exact ⟨rfl, lookupObj_update_self s.heap env _ _ hlk⟩

theorem claim7_witness :
    ∃ t, execInstr ⟨[]⟩
        { heap := [(0, .table none [])], nextAddr := 1, evalstack := [.integer 7],
          retstack := [], envstack := [0], pc := ⟨0, 0⟩, threshold := 1000, output := [] }
        (.declareVariable "x") = .ok t ∧
      t.evalstack = [.integer 7] ∧
      lookupObj t.heap 0 = some (.table none [("x", .integer 7)]) := by
  have h := claim7_declare_binds_without_pop ⟨[]⟩
    { heap := [(0, .table none [])], nextAddr := 1, evalstack := [.integer 7],
      retstack := [], envstack := [0], pc := ⟨0, 0⟩, threshold := 1000, output := [] }
    "x" 0 [] (.integer 7) [] none [] rfl rfl (by decide) (by decide)
  exact ⟨_, h.1, (h.2 _ h.1).1, (h.2 _ h.1).2⟩

/-- claim C8. The GC cadence is supposed to be unobservable; scenarios 1-4
do print identically under the step-wise DEBUG collector and the
threshold-based PROD collector, but scenario 5 does not: under PROD it
prints INTEGER(42), while under DEBUG the collection after the inner CALL
frees the captured environment and the run aborts on a dangling
environment reference before printing anything. -/
theorem claim8_gc_mode_partially_observable :
    ((runExpr .debug 100 scenario1).outputOf = (runExpr .prod 100 scenario1).outputOf ∧
     (runExpr .debug 100 scenario2).outputOf = (runExpr .prod 100 scenario2).outputOf ∧
     (runExpr .debug 100 scenario3).outputOf = (runExpr .prod 100 scenario3).outputOf ∧
     (runExpr .debug 100 scenario4).outputOf = (runExpr .prod 100 scenario4).outputOf) ∧
    (runExpr .prod 100 scenario5).outputOf = some ["INTEGER(42)"] ∧
    (runExpr .debug 100 scenario5).outputOf = none ∧
    (runExpr .debug 100 scenario5).errOf = some "dangling object reference" := by
  have h1 : compileProgram scenario1 = ⟨[⟨[], [.blockStart, .pushInteger 124124, .debugPrint,
      .pop, .pushInteger 7, .debugPrint, .blockEnd]⟩]⟩ := by
    simp [compileProgram, scenario1, compileE, compileSeq, compileBlock]
  have h2 : compileProgram scenario2 = ⟨[⟨[], [.blockStart, .pushNil, .ifJump 5,
      .pushInteger 11111, .elseJump 6, .pushInteger 222222, .debugPrint, .blockEnd]⟩]⟩ := by
    simp [compileProgram, scenario2, compileE, compileSeq, compileBlock]
  have h3 : compileProgram scenario3 = ⟨[⟨[], [.blockStart, .pushInteger 55371,
      .declareVariable "x", .pop, .pushVariable "x", .debugPrint, .blockEnd]⟩]⟩ := by
    simp [compileProgram, scenario3, compileE, compileSeq, compileBlock]
  have h4 : compileProgram scenario4 = ⟨[⟨[], [.blockStart, .pushFunction 1,
      .declareVariable "f", .pop, .pushInteger 777777, .pushVariable "f", .call 1, .pop,
      .pushInteger 9999999999, .pushVariable "f", .call 1, .pop, .pushNil, .debugPrint,
      .blockEnd]⟩, ⟨["a"], [.blockStart, .pushVariable "a", .debugPrint, .blockEnd]⟩]⟩ := by
    simp [compileProgram, scenario4, compileE, compileSeq, compileBlock]
  have h5 : compileProgram scenario5 = ⟨[⟨[], [.blockStart, .pushFunction 1,
      .declareVariable "mk", .pop, .pushInteger 42, .pushVariable "mk", .call 1, .call 0,
      .blockEnd]⟩, ⟨["x"], [.pushFunction 2]⟩, ⟨[], [.pushVariable "x", .debugPrint]⟩]⟩ := by
    simp [compileProgram, scenario5, compileE, compileSeq, compileBlock]
  unfold runExpr
  rw [h1, h2, h3, h4, h5]
  refine ⟨⟨by decide, by decide, by decide, by decide⟩, by decide, by decide, by decide⟩

/-- claim C9, counterexample. Calling a non-function reports
"Not calllable: <tag>" (capitalized, with the source's spelling), not
"not callable: <tag>": the program call(int 1, []) fails with
"Not calllable: INTEGER". -/
theorem claim9_counterexample :
    (runExpr .debug 100 (.call (.int 1) [])).errOf = some "Not calllable: INTEGER" ∧
      (runExpr .debug 100 (.call (.int 1) [])).errOf ≠ some "not callable: INTEGER" := by
  have hp : compileProgram (.call (.int 1) []) = ⟨[⟨[], [.pushInteger 1, .call 0]⟩]⟩ := by
    simp [compileProgram, compileE, compileSeq]
  unfold runExpr
  rw [hp]
  exact ⟨by decide, by decide⟩

/-- claim C9, amended. Executing CALL when the top of the value stack does
not have tag FUNCTION fails, without mutating the state, with the
diagnostic "Not calllable: <tag>" where <tag> is the value's type name. -/
theorem claim9_call_non_function_diagnostic (prog : Program) (s : VMState) (v : Value)
    (vs : List Value) (n : Int) (heval : s.evalstack = v :: vs)
    (hnf : ∀ a, v ≠ Value.function a) :
    execInstr prog s (.call n) = .err ("Not calllable: " ++ v.typeName) s := by
  cases v with
  | function a => exact absurd rfl (hnf a)
  | nil => simp [execInstr, heval]
  | integer i => simp [execInstr, heval]
  | table a => simp [execInstr, heval]

theorem claim9_witness :
    execInstr ⟨[]⟩
      { heap := [(0, .table none [])], nextAddr := 1, evalstack := [.integer 1],
        retstack := [], envstack := [0], pc := ⟨0, 1⟩, threshold := 1000, output := [] }
      (.call 0) =
    .err "Not calllable: INTEGER"
      { heap := [(0, .table none [])], nextAddr := 1, evalstack := [.integer 1],
        retstack := [], envstack := [0], pc := ⟨0, 1⟩, threshold := 1000, output := [] } :=
  claim9_call_non_function_diagnostic ⟨[]⟩ _ (.integer 1) [] 0 rfl (by intro a h; cases h)

/-- claim C10. An arity failure in CALL happens only after the VM has
pushed the return address, popped the callee, and pushed the fresh
environment: the error state carries all three mutations (and the n
arguments are still on the value stack), so the failure is not atomic. -/
theorem claim10_arity_error_after_mutation (prog : Program) (s : VMState)
    (fa fenv fblob : Nat) (rest : List Value) (n : Int)
    (heval : s.evalstack = .function fa :: rest)
    (hlk : lookupObj s.heap fa = some (.function fenv fblob))
    (hne : n ≠ ((prog.blobAt fblob).args.length : Int)) :
    execInstr prog s (.call n) =
      .err ("Expected " ++ toString (prog.blobAt fblob).args.length ++ " args but got " ++
          toString n)
        { s with pc := s.pc.incr, retstack := s.pc.incr :: s.retstack, evalstack := rest,
                 envstack := s.nextAddr :: s.envstack,
                 heap := s.heap ++ [(s.nextAddr, .table (some fenv) [])],
                 nextAddr := s.nextAddr + 1 } := by
  simp [execInstr, heval, hlk, VMState.alloc, hne]

theorem claim10_witness :
    execInstr ⟨[⟨[], []⟩, ⟨["a", "b"], []⟩]⟩
      { heap := [(0, .table none []), (1, .function 0 1)], nextAddr := 2,
        evalstack := [.function 1, .integer 5], retstack := [], envstack := [0],
        pc := ⟨0, 3⟩, threshold := 1000, output := [] }
      (.call 1) =
    .err "Expected 2 args but got 1"
      { heap := [(0, .table none []), (1, .function 0 1), (2, .table (some 0) [])],
        nextAddr := 3, evalstack := [.integer 5], retstack := [⟨0, 4⟩], envstack := [2, 0],
        pc := ⟨0, 4⟩, threshold := 1000, output := [] } := by
  have h := claim10_arity_error_after_mutation ⟨[⟨[], []⟩, ⟨["a", "b"], []⟩]⟩
    { heap := [(0, .table none []), (1, .function 0 1)], nextAddr := 2,
      evalstack := [.function 1, .integer 5], retstack := [], envstack := [0],
      pc := ⟨0, 3⟩, threshold := 1000, output := [] }
    1 0 1 [.integer 5] 1 rfl (by decide) (by decide)
  exact h


theorem set_append_len {α : Type} (l₁ : List α) (x : α) (l₂ : List α) (y : α) :
    (l₁ ++ x :: l₂).set l₁.length y = l₁ ++ y :: l₂ := by
  induction l₁ with
  | nil => rfl
  | cons a t ih => simp [List.set, ih]

theorem double_patch {α : Type} (A B T F : List α) (u v u' v' : α) (p q : Nat)
    (hp : p = A.length + B.length) (hq : q = A.length + (B.length + (1 + T.length))) :
    ((A ++ (B ++ u :: (T ++ v :: F))).set p u').set q v' =
      A ++ (B ++ u' :: (T ++ v' :: F)) := by
  subst hp hq
  rw [show A ++ (B ++ u :: (T ++ v :: F)) = (A ++ B) ++ u :: (T ++ v :: F) from by simp,
    show A.length + B.length = (A ++ B).length from by simp,
    set_append_len]
  rw [show (A ++ B) ++ u' :: (T ++ v :: F) = ((A ++ B) ++ u' :: T) ++ v :: F from by simp,
    show A.length + (B.length + (1 + T.length)) = ((A ++ B) ++ u' :: T).length from by
      simp; omega,
    set_append_len]
  simp

mutual

theorem length_blobsOf (e : Expr) : ∀ k, (blobsOf e k).length = nb e := by
  intro k
  match e with
  | .nil | .int _ | .var _ => simp [blobsOf, nb]
  | .lambda ps body => simp [blobsOf, nb, length_blobsOf body (k+1)]; omega
  | .decl n init => simp [blobsOf, nb, length_blobsOf init k]
  | .print c => simp [blobsOf, nb, length_blobsOf c k]
  | .call f args =>
    simp [blobsOf, nb, length_blobsOfList args k, length_blobsOf f (k + nbList args)]
  | .ifE c t f =>
    simp [blobsOf, nb, length_blobsOf c k, length_blobsOf t (k + nb c),
      length_blobsOf f (k + nb c + nb t)]
    omega
  | .block cs => simp [blobsOf, nb, length_blobsOfList cs k]
termination_by sizeOf e
decreasing_by all_goals (simp_wf <;> omega)

theorem length_blobsOfList (es : List Expr) : ∀ k, (blobsOfList es k).length = nbList es := by
  intro k
  match es with
  | [] => simp [blobsOfList, nbList]
  | e :: rest =>
    simp [blobsOfList, nbList, length_blobsOf e k, length_blobsOfList rest (k + nb e)]
termination_by sizeOf es
decreasing_by all_goals (simp_wf <;> omega)

end

mutual

theorem length_emit (e : Expr) : ∀ i k, (emit e i k).length = codeLen e := by
  intro i k
  match e with
  | .nil | .int _ | .var _ | .lambda _ _ => simp [emit, codeLen]
  | .decl n init => simp [emit, codeLen, length_emit init]
  | .print c => simp [emit, codeLen, length_emit c]
  | .call f args =>
    simp [emit, codeLen, length_emitSeq args, length_emit f]
    omega
  | .ifE c t f =>
    simp [emit, codeLen, length_emit c, length_emit t, length_emit f]
    omega
  | .block [] => simp [emit, codeLen]
  | .block (c :: cs) => simp [emit, codeLen, length_emitBlock c cs]; omega
termination_by sizeOf e
decreasing_by all_goals (simp_wf <;> omega)

theorem length_emitSeq (es : List Expr) : ∀ i k, (emitSeq es i k).length = codeLenList es := by
  intro i k
  match es with
  | [] => simp [emitSeq, codeLenList]
  | e :: rest =>
    simp [emitSeq, codeLenList, length_emit e, length_emitSeq rest]
termination_by sizeOf es
decreasing_by all_goals (simp_wf <;> omega)

theorem length_emitBlock (c : Expr) (rest : List Expr) :
    ∀ i k, (emitBlock c rest i k).length = codeLenBlock c rest := by
  intro i k
  match rest with
  | [] => simp [emitBlock, codeLenBlock, length_emit c]
  | c' :: rest' =>
    simp [emitBlock, codeLenBlock, length_emit c, length_emitBlock c' rest']
    omega
termination_by 1 + sizeOf c + sizeOf rest
decreasing_by all_goals (simp_wf <;> omega)

end

mutual

theorem compileE_emit (e : Expr) : ∀ (cur : List Instr) (blobs : List (Option Blob)),
    compileE e cur blobs =
      (cur ++ emit e cur.length blobs.length, blobs ++ (blobsOf e blobs.length).map some) := by
  intro cur blobs
  match e with
  | .nil => simp [compileE, emit, blobsOf]
  | .int i => simp [compileE, emit, blobsOf]
  | .var n => simp [compileE, emit, blobsOf]
  | .lambda ps body =>
    have hb := compileE_emit body [] (blobs ++ [none])
    simp only [compileE, hb, List.nil_append, List.length_append, List.length_cons,
      List.length_nil, Nat.zero_add, emit, blobsOf, List.map_cons, Prod.mk.injEq,
      List.append_assoc]
    exact ⟨trivial, set_append_len blobs (none : Option Blob) _ _⟩
  | .decl n init =>
    have h := compileE_emit init cur blobs
    simp [compileE, h, emit, blobsOf]
  | .print c =>
    have h := compileE_emit c cur blobs
    simp [compileE, h, emit, blobsOf]
  | .call f args =>
    have h1 := compileSeq_emit args cur blobs
    have h2 := compileE_emit f (cur ++ emitSeq args cur.length blobs.length)
      (blobs ++ (blobsOfList args blobs.length).map some)
    simp [compileE, h1, h2, emit, blobsOf, length_blobsOfList]
  | .ifE c t f =>
    have hc := compileE_emit c cur blobs
    simp only [compileE, emit, blobsOf]
    rw [hc]
    rw [compileE_emit t]
    rw [compileE_emit f]
    simp only [List.append_assoc, List.length_append, List.length_map, List.length_cons,
      List.length_nil, List.singleton_append, List.cons_append, List.nil_append,
      length_blobsOf, length_blobsOfList, Nat.add_assoc, Nat.zero_add, Nat.add_zero,
      length_emit]
    rw [show cur.length + (codeLen c + (codeLen t + (1 + 1))) =
        cur.length + (codeLen c + (1 + (codeLen t + 1))) from by omega]
    rw [double_patch]
    rotate_left
    all_goals try (simp only [List.length_append, List.length_cons, length_emit]; omega)
    simp only [List.map_append, List.append_assoc, Prod.mk.injEq, List.append_cancel_left_eq,
      List.cons.injEq, Instr.ifJump.injEq, Instr.elseJump.injEq, length_emit]
    rw [show cur.length + (codeLen c + (codeLen t + 1)) =
        cur.length + (codeLen c + (1 + codeLen t)) from by omega,
      show cur.length + (codeLen c + (codeLen t + (codeLen f + (1 + 1)))) =
        cur.length + (codeLen c + (1 + (codeLen t + (1 + codeLen f)))) from by omega]
    simp [List.map_append]
  | .block cs =>
    match cs with
    | [] => simp [compileE, emit, blobsOf, blobsOfList]
    | c :: rest =>
      have h := compileBlock_emit c rest (cur ++ [.blockStart]) blobs
      simp [compileE, h, emit, blobsOf]
termination_by sizeOf e
decreasing_by all_goals (simp_wf <;> omega)

theorem compileSeq_emit (es : List Expr) : ∀ (cur : List Instr) (blobs : List (Option Blob)),
    compileSeq es cur blobs =
      (cur ++ emitSeq es cur.length blobs.length,
        blobs ++ (blobsOfList es blobs.length).map some) := by
  intro cur blobs
  match es with
  | [] => simp [compileSeq, emitSeq, blobsOfList]
  | e :: rest =>
    have h1 := compileE_emit e cur blobs
    have h2 := compileSeq_emit rest (cur ++ emit e cur.length blobs.length)
      (blobs ++ (blobsOf e blobs.length).map some)
    simp [compileSeq, h1, h2, emitSeq, blobsOfList, length_blobsOf]
termination_by sizeOf es
decreasing_by all_goals (simp_wf <;> omega)

theorem compileBlock_emit (c : Expr) (rest : List Expr) :
    ∀ (cur : List Instr) (blobs : List (Option Blob)),
    compileBlock c rest cur blobs =
      (cur ++ emitBlock c rest cur.length blobs.length,
        blobs ++ (blobsOfList (c :: rest) blobs.length).map some) := by
  intro cur blobs
  match rest with
  | [] =>
    have h := compileE_emit c cur blobs
    simp [compileBlock, h, emitBlock, blobsOfList, blobsOf]
  | c' :: rest' =>
    have h1 := compileE_emit c cur blobs
    have h2 := compileBlock_emit c' rest'
      ((cur ++ emit c cur.length blobs.length) ++ [.pop])
      (blobs ++ (blobsOf c blobs.length).map some)
    simp only [List.append_assoc, List.length_append, List.length_map, List.length_cons,
      List.length_nil, length_blobsOf, List.singleton_append] at h2
    simp [compileBlock, h1, h2, emitBlock, blobsOfList, length_blobsOf, List.append_assoc,
      Nat.add_assoc]
termination_by 1 + sizeOf c + sizeOf rest
decreasing_by all_goals (simp_wf <;> omega)

end


theorem getD_append_len {α : Type} (X : List α) (y : α) (Z : List α) (d : α) :
    (X ++ y :: Z).getD X.length d = y := by
  induction X with
  | nil => rfl
  | cons a t ih => simpa [List.getD] using ih

theorem getD_concat_mid {α : Type} (A B : List α) (y : α) (Z : List α) (d : α) (n : Nat)
    (h : n = A.length + B.length) : (A ++ (B ++ y :: Z)).getD n d = y := by
  subst h
  rw [← List.append_assoc, show A.length + B.length = (A ++ B).length from by simp]
  exact getD_append_len _ _ _ _

theorem getD_concat_mid2 {α : Type} (A B : List α) (u : α) (T : List α) (v : α) (F : List α)
    (d : α) (n : Nat) (h : n = A.length + B.length + 1 + T.length) :
    (A ++ (B ++ u :: (T ++ v :: F))).getD n d = v := by
  subst h
  rw [show A ++ (B ++ u :: (T ++ v :: F)) = ((A ++ B) ++ u :: T) ++ v :: F from by simp,
    show A.length + B.length + 1 + T.length = ((A ++ B) ++ u :: T).length from by simp; omega]
  exact getD_append_len _ _ _ _

/-- claim C4. Compiling IF(cond, then, else) patches the placeholder IF
instruction's operand to p_else + 1 (the index just after the placeholder
ELSE) and the placeholder ELSE instruction's operand to the length of the
instruction list; consequently block(print(if(nil, int 11111, int 222222)))
prints exactly INTEGER(222222). -/
theorem claim4_if_patching :
    (∀ (c t f : Expr) (cur : List Instr) (blobs : List (Option Blob)),
      (compileE (.ifE c t f) cur blobs).1.getD (cur.length + codeLen c) .invalid =
          .ifJump (((cur.length + codeLen c + 1 + codeLen t : Nat) : Int) + 1) ∧
        (compileE (.ifE c t f) cur blobs).1.getD (cur.length + codeLen c + 1 + codeLen t)
            .invalid =
          .elseJump (((compileE (.ifE c t f) cur blobs).1.length : Int)) ∧
        (compileE (.ifE c t f) cur blobs).1.length =
          cur.length + codeLen c + 1 + codeLen t + 1 + codeLen f) ∧
    (runExpr .debug 100 scenario2).outputOf = some ["INTEGER(222222)"] ∧
    (runExpr .prod 100 scenario2).outputOf = some ["INTEGER(222222)"] := by
  have h2 : compileProgram scenario2 = ⟨[⟨[], [.blockStart, .pushNil, .ifJump 5,
      .pushInteger 11111, .elseJump 6, .pushInteger 222222, .debugPrint, .blockEnd]⟩]⟩ := by
    simp [compileProgram, scenario2, compileE, compileSeq, compileBlock]
  refine ⟨?_, ?_, ?_⟩
  · intro c t f cur blobs
    rw [compileE_emit]
    simp only [emit, List.append_assoc, List.cons_append, List.singleton_append, List.nil_append]
    refine ⟨?_, ?_, ?_⟩
    · rw [getD_concat_mid _ _ _ _ _ _ (by simp [length_emit])]
      simp only [Instr.ifJump.injEq, length_emit]
      try omega
    · rw [getD_concat_mid2 _ _ _ _ _ _ _ _ (by simp [length_emit])]
      simp only [Instr.elseJump.injEq, List.length_append, List.length_cons, length_emit]
      try omega
    · simp only [List.length_append, List.length_cons, length_emit]
      omega
  · show (runFuel (compileProgram scenario2) .debug 100 initState).outputOf = _
    rw [h2]; decide
  · show (runFuel (compileProgram scenario2) .prod 100 initState).outputOf = _
    rw [h2]; decide

theorem StepsN.trans {prog : Program} {mode : Mode} {m n : Nat} {s s' s'' : VMState}
    (h₁ : StepsN prog mode m s s') (h₂ : StepsN prog mode n s' s'') :
    StepsN prog mode (m + n) s s'' := by
  induction h₁ with
  | zero => simpa using h₂
  | more hnf hstep _ ih =>
    have h := StepsN.more hnf hstep (ih h₂)
    rwa [Nat.add_right_comm]

theorem stepsN_zero {prog : Program} {mode : Mode} {s s' : VMState}
    (h : StepsN prog mode 0 s s') : s' = s := by
  cases h
  rfl

theorem runFuel_steps {prog : Program} {mode : Mode} : ∀ (fuel : Nat) (s sf : VMState),
    runFuel prog mode fuel s = .done sf →
    ∃ n, n ≤ fuel ∧ StepsN prog mode n s sf ∧ isFinal prog sf = true := by
  intro fuel
  induction fuel with
  | zero => intro s sf h; simp [runFuel] at h
  | succ f ih =>
    intro s sf h
    rw [runFuel] at h
    by_cases hfin : isFinal prog s = true
    · rw [if_pos hfin] at h
      cases h
      exact ⟨0, by omega, StepsN.zero s, hfin⟩
    · rw [if_neg hfin] at h
      split at h
      · rename_i s₁ hstep
        obtain ⟨n, hn, hsteps, hf⟩ := ih _ _ h
        exact ⟨n + 1, by omega, StepsN.more (by simpa using hfin) hstep hsteps, hf⟩
      · cases h

theorem steps_head {prog : Program} {mode : Mode} {n : Nat} {s sf : VMState}
    (h : StepsN prog mode n s sf) (hf : isFinal prog sf = true)
    (hs : isFinal prog s = false) :
    ∃ n' s', n = n' + 1 ∧ stepIter prog mode s = .ok s' ∧ StepsN prog mode n' s' sf := by
  cases h with
  | zero => rw [hs] at hf; cases hf
  | more hnf hstep hrest => exact ⟨_, _, rfl, hstep, hrest⟩

theorem foldl_visitMark_spec (cs : List Nat) : ∀ (b g : List Nat) (w : Nat),
    ∃ new, List.foldl visitMark (b, g, w) cs = (new ++ b, new ++ g, w + cs.length) ∧
      (∀ x ∈ new, x ∈ cs) ∧ (∀ q ∈ cs, q ∈ new ++ b) := by
  induction cs with
  | nil => intro b g w; exact ⟨[], by simp, by simp, by simp⟩
  | cons q rest ih =>
    intro b g w
    by_cases hq : q ∈ b
    · obtain ⟨new, hfold, hnew, hcov⟩ := ih b g (w + 1)
      refine ⟨new, ?_, fun x hx => List.mem_cons_of_mem _ (hnew x hx), ?_⟩
      · rw [List.foldl_cons, show visitMark (b, g, w) q = (b, g, w + 1) from by
          simp [visitMark, hq], hfold]
        simp [Nat.add_assoc, Nat.add_comm 1 rest.length]
      · intro x hx
        rcases List.mem_cons.mp hx with rfl | hx'
        · simp [hq]
        · exact hcov x hx'
    · obtain ⟨new, hfold, hnew, hcov⟩ := ih (q :: b) (q :: g) (w + 1)
      refine ⟨new ++ [q], ?_, ?_, ?_⟩
      · rw [List.foldl_cons, show visitMark (b, g, w) q = (q :: b, q :: g, w + 1) from by
          simp [visitMark, hq], hfold]
        simp [Nat.add_assoc, Nat.add_comm 1 rest.length]
      · intro x hx
        rcases List.mem_append.mp hx with hx' | hx'
        · exact List.mem_cons_of_mem _ (hnew x hx')
        · simp at hx'
          simp [hx']
      · intro x hx
        rcases List.mem_cons.mp hx with rfl | hx'
        · simp
        · have := hcov x hx'
          simp only [List.mem_append, List.mem_cons] at this ⊢
          tauto

theorem foldl_visitValueRoot_spec (vs : List Value) : ∀ (b g : List Nat) (w : Nat),
    ∃ new, List.foldl visitValueRoot (b, g, w) vs = (new ++ b, new ++ g, w + vs.length) ∧
      (∀ x ∈ new, x ∈ vs.filterMap Value.objAddr) ∧
      (∀ q ∈ vs.filterMap Value.objAddr, q ∈ new ++ b) := by
  induction vs with
  | nil => intro b g w; exact ⟨[], by simp, by simp, by simp⟩
  | cons v rest ih =>
    intro b g w
    rcases hv : v.objAddr with _ | a
    · obtain ⟨new, hfold, hnew, hcov⟩ := ih b g (w + 1)
      refine ⟨new, ?_, ?_, ?_⟩
      · rw [List.foldl_cons, show visitValueRoot (b, g, w) v = (b, g, w + 1) from by
          simp [visitValueRoot, hv], hfold]
        simp [Nat.add_assoc, Nat.add_comm 1 rest.length]
      · intro x hx
        simp only [List.filterMap_cons, hv]
        exact hnew x hx
      · intro x hx
        simp only [List.filterMap_cons, hv] at hx
        exact hcov x hx
    · by_cases hq : a ∈ b
      · obtain ⟨new, hfold, hnew, hcov⟩ := ih b g (w + 1)
        refine ⟨new, ?_, ?_, ?_⟩
        · rw [List.foldl_cons, show visitValueRoot (b, g, w) v = (b, g, w + 1) from by
            simp [visitValueRoot, hv, visitMark, hq], hfold]
          simp [Nat.add_assoc, Nat.add_comm 1 rest.length]
        · intro x hx
          simp only [List.filterMap_cons, hv]
          exact List.mem_cons_of_mem _ (hnew x hx)
        · intro x hx
          simp only [List.filterMap_cons, hv, List.mem_cons] at hx
          rcases hx with rfl | hx'
          · simp [hq]
          · exact hcov x hx'
      · obtain ⟨new, hfold, hnew, hcov⟩ := ih (a :: b) (a :: g) (w + 1)
        refine ⟨new ++ [a], ?_, ?_, ?_⟩
        · rw [List.foldl_cons, show visitValueRoot (b, g, w) v = (a :: b, a :: g, w + 1) from by
            simp [visitValueRoot, hv, visitMark, hq], hfold]
          simp [Nat.add_assoc, Nat.add_comm 1 rest.length]
        · intro x hx
          simp only [List.filterMap_cons, hv]
          rcases List.mem_append.mp hx with hx' | hx'
          · exact List.mem_cons_of_mem _ (hnew x hx')
          · simp at hx'
            simp [hx']
        · intro x hx
          simp only [List.filterMap_cons, hv, List.mem_cons] at hx
          rcases hx with rfl | hx'
          · simp
          · have := hcov x hx'
            simp only [List.mem_append, List.mem_cons] at this ⊢
            tauto

theorem lookup_mem {h : Heap} {a : Nat} {o : Obj} (hl : lookupObj h a = some o) :
    (a, o) ∈ h := by
  induction h with
  | nil => simp [lookupObj] at hl
  | cons p t ih =>
    obtain ⟨x, ox⟩ := p
    by_cases hx : x = a
    · subst hx
      simp [lookupObj] at hl
      simp [hl]
    · simp only [lookupObj, if_neg hx] at hl
      exact List.mem_cons_of_mem _ (ih hl)

theorem childAddrs_subset {h : Heap} {p q : Nat} (hq : q ∈ childAddrs h p) :
    q ∈ allChildren h := by
  unfold childAddrs at hq
  rcases hl : lookupObj h p with _ | o
  · rw [hl] at hq
    simp at hq
  · rw [hl] at hq
    have hm := lookup_mem hl
    simp only [allChildren, List.mem_flatten]
    exact ⟨o.children, List.mem_map.mpr ⟨(p, o), hm, rfl⟩, hq⟩

theorem filter_count_mono (C : List Nat) (b b' : List Nat) (hsub : ∀ x ∈ b, x ∈ b') :
    ((C.filter (fun x => decide (x ∉ b'))).length) ≤ (C.filter (fun x => decide (x ∉ b))).length := by
  induction C with
  | nil => simp
  | cons c rest ih =>
    by_cases hc' : c ∈ b'
    · rw [List.filter_cons_of_neg (by simp [hc'])]
      by_cases hcb : c ∈ b
      · rw [List.filter_cons_of_neg (by simp [hcb])]
        exact ih
      · rw [List.filter_cons_of_pos (by simp [hcb])]
        simp only [List.length_cons]
        omega
    · have hcb : c ∉ b := fun hh => hc' (hsub c hh)
      rw [List.filter_cons_of_pos (by simp [hc']), List.filter_cons_of_pos (by simp [hcb])]
      simp only [List.length_cons]
      omega

theorem filter_count_drop (C : List Nat) (q : Nat) (b : List Nat) (hq : q ∈ C) (hnb : q ∉ b) :
    (C.filter (fun x => decide (x ∉ q :: b))).length + 1 ≤
      (C.filter (fun x => decide (x ∉ b))).length := by
  induction C with
  | nil => simp at hq
  | cons c rest ih =>
    rcases List.mem_cons.mp hq with rfl | hq'
    · rw [List.filter_cons_of_neg (by simp), List.filter_cons_of_pos (by simp [hnb])]
      simp only [List.length_cons]
      have := filter_count_mono rest b (q :: b) (fun x hx => List.mem_cons_of_mem _ hx)
      omega
    · by_cases hc : c ∈ q :: b
      · rw [List.filter_cons_of_neg (by simp [List.mem_cons.mp hc])]
        rcases List.mem_cons.mp hc with rfl | hcb
        · rw [List.filter_cons_of_pos (by simp [hnb])]
          simp only [List.length_cons]
          have := ih hq'
          omega
        · rw [List.filter_cons_of_neg (by simp [hcb])]
          exact ih hq'
      · have hcb : c ∉ b := fun hh => hc (List.mem_cons_of_mem _ hh)
        rw [List.filter_cons_of_pos (by simpa using hc), List.filter_cons_of_pos (by simp [hcb])]
        simp only [List.length_cons]
        have := ih hq'
        omega

theorem visitFold_measure (C : List Nat) : ∀ (cs : List Nat) (b g : List Nat) (w : Nat),
    (∀ q ∈ cs, q ∈ C) →
    (List.foldl visitMark (b, g, w) cs).2.1.length +
      (C.filter (fun x => decide (x ∉ (List.foldl visitMark (b, g, w) cs).1))).length ≤
    g.length + (C.filter (fun x => decide (x ∉ b))).length := by
  intro cs
  induction cs with
  | nil => intro b g w _; simp
  | cons q rest ih =>
    intro b g w hcs
    by_cases hq : q ∈ b
    · rw [List.foldl_cons, show visitMark (b, g, w) q = (b, g, w + 1) from by simp [visitMark, hq]]
      exact ih b g (w + 1) (fun x hx => hcs x (List.mem_cons_of_mem _ hx))
    · rw [List.foldl_cons, show visitMark (b, g, w) q = (q :: b, q :: g, w + 1) from by
        simp [visitMark, hq]]
      have h1 := ih (q :: b) (q :: g) (w + 1) (fun x hx => hcs x (List.mem_cons_of_mem _ hx))
      have h2 := filter_count_drop C q b (hcs q (List.mem_cons_self _ _)) hq
      simp only [List.length_cons] at h1
      omega

theorem markLoop_spec (h : Heap) : ∀ (fuel : Nat) (grey black : List Nat) (w : Nat),
    grey.length + ((allChildren h).filter (fun x => decide (x ∉ black))).length < fuel →
    (∀ p ∈ black, p ∈ grey ∨ (∀ q ∈ childAddrs h p, q ∈ black)) →
    (∀ x ∈ black, x ∈ (markLoop h fuel grey black w).1) ∧
      (∀ p ∈ (markLoop h fuel grey black w).1, ∀ q ∈ childAddrs h p,
        q ∈ (markLoop h fuel grey black w).1) := by
  intro fuel
  induction fuel with
  | zero => intro grey black w hΦ _; omega
  | succ f ih =>
    intro grey black w hΦ hInv
    match grey with
    | [] =>
      rw [show markLoop h (f + 1) [] black w = (black, w) from rfl]
      refine ⟨fun x hx => hx, fun p hp q hq => ?_⟩
      rcases hInv p hp with hg | hcl
      · simp at hg
      · exact hcl q hq
    | p :: g =>
      obtain ⟨new, hfold, hnew, hcov⟩ := foldl_visitMark_spec (childAddrs h p) black g w
      have hmeas := visitFold_measure (allChildren h) (childAddrs h p) black g w
        (fun q hq => childAddrs_subset hq)
      rw [hfold] at hmeas
      have hstep : markLoop h (f + 1) (p :: g) black w =
          markLoop h f (new ++ g) (new ++ black) (w + (childAddrs h p).length) := by
        rw [markLoop, hfold]
      rw [hstep]
      simp only [List.length_cons] at hΦ
      have hΦ' : (new ++ g).length +
          ((allChildren h).filter (fun x => decide (x ∉ new ++ black))).length < f := by
        simp only [List.length_append] at hmeas ⊢
        omega
      have hInv' : ∀ x ∈ new ++ black, x ∈ new ++ g ∨
          (∀ q ∈ childAddrs h x, q ∈ new ++ black) := by
        intro x hx
        rcases List.mem_append.mp hx with hx' | hx'
        · exact .inl (List.mem_append.mpr (.inl hx'))
        · rcases hInv x hx' with hg | hcl
          · rcases List.mem_cons.mp hg with rfl | hg'
            · exact .inr hcov
            · exact .inl (List.mem_append.mpr (.inr hg'))
          · exact .inr (fun q hq => List.mem_append.mpr (.inr (hcl q hq)))
      obtain ⟨h1, h2⟩ := ih (new ++ g) (new ++ black) (w + (childAddrs h p).length) hΦ' hInv'
      exact ⟨fun x hx => h1 x (List.mem_append.mpr (.inr hx)), h2⟩

theorem sumChildren_eq (h : Heap) : (allChildren h).length = sumChildren h := by
  simp only [allChildren, sumChildren, List.length_flatten, List.map_map]
  rfl

theorem markAndSweep_heap (s : VMState) :
    ∃ BF : List Nat,
      (markAndSweep s).heap = s.heap.filter (fun p => decide (p.1 ∈ BF)) ∧
      (∀ a ∈ rootAddrs s, a ∈ BF) ∧
      ∀ p ∈ BF, ∀ q ∈ childAddrs s.heap p, q ∈ BF := by
  obtain ⟨n1, h1, hn1, hcov1⟩ := foldl_visitValueRoot_spec s.evalstack [] [] 0
  obtain ⟨n2, h2, hn2, hcov2⟩ := foldl_visitMark_spec s.envstack (n1 ++ []) (n1 ++ [])
    (0 + s.evalstack.length)
  simp only [markAndSweep, markAndSweepW, h1, h2]
  refine ⟨_, rfl, ?_, ?_⟩
  · intro a ha
    refine (markLoop_spec s.heap _ _ _ _ ?_ ?_).1 a ?_
    · have hle := List.length_filter_le
        (fun x => decide (x ∉ n2 ++ (n1 ++ []))) (allChildren s.heap)
      have hs := sumChildren_eq s.heap
      omega
    · intro p hp
      exact .inl hp
    · rcases List.mem_append.mp ha with hv | he
      · exact List.mem_append.mpr (.inr (hcov1 a hv))
      · exact hcov2 a he
  · refine (markLoop_spec s.heap _ _ _ _ ?_ ?_).2
    · have hle := List.length_filter_le
        (fun x => decide (x ∉ n2 ++ (n1 ++ []))) (allChildren s.heap)
      have hs := sumChildren_eq s.heap
      omega
    · intro p hp
      exact .inl hp

theorem lookupObj_filter (h : Heap) (B : List Nat) (a : Nat)
    (nd : (h.map Prod.fst).Nodup) :
    lookupObj (h.filter (fun p => decide (p.1 ∈ B))) a =
      if a ∈ B then lookupObj h a else none := by
  induction h with
  | nil => simp [lookupObj]
  | cons p t ih =>
    obtain ⟨x, ox⟩ := p
    simp only [List.map_cons, List.nodup_cons] at nd
    obtain ⟨hx_notin, nd'⟩ := nd
    by_cases hxB : x ∈ B
    · rw [List.filter_cons_of_pos (by simp [hxB])]
      by_cases hxa : x = a
      · subst hxa
        simp [lookupObj, hxB]
      · simp only [lookupObj, if_neg hxa]
        exact ih nd'
    · rw [List.filter_cons_of_neg (by simp [hxB])]
      by_cases hxa : x = a
      · subst hxa
        rw [ih nd']
        simp [hxB]
      · rw [ih nd']
        simp only [lookupObj, if_neg hxa]

theorem markAndSweep_fields (s : VMState) :
    (markAndSweep s).evalstack = s.evalstack ∧ (markAndSweep s).retstack = s.retstack ∧
    (markAndSweep s).envstack = s.envstack ∧ (markAndSweep s).pc = s.pc ∧
    (markAndSweep s).output = s.output ∧ (markAndSweep s).nextAddr = s.nextAddr :=
  ⟨rfl, rfl, rfl, rfl, rfl, rfl⟩

theorem markAndSweep_preserves (prog : Program) (s : VMState) (hwf : StateWF prog s) :
    StateWF prog (markAndSweep s) := by
  obtain ⟨⟨hfun, htab⟩, henv, heval, hbound, hnd⟩ := hwf
  obtain ⟨BF, hheap, hroots, hclosed⟩ := markAndSweep_heap s
  have hlk : ∀ a, lookupObj (markAndSweep s).heap a =
      if a ∈ BF then lookupObj s.heap a else none := by
    intro a
    rw [hheap]
    exact lookupObj_filter s.heap BF a hnd
  refine ⟨⟨?_, ?_⟩, ?_, ?_, ?_, ?_⟩
  · intro a env bi hla
    rw [hlk] at hla
    by_cases haB : a ∈ BF
    · rw [if_pos haB] at hla
      exact hfun a env bi hla
    · rw [if_neg haB] at hla
      cases hla
  · intro a pr m hla kv hkv
    rw [hlk] at hla
    by_cases haB : a ∈ BF
    swap
    · rw [if_neg haB] at hla
      cases hla
    rw [if_pos haB] at hla
    have hlv := htab a pr m hla kv hkv
    have hchild : ∀ q, kv.2.objAddr = some q → q ∈ BF := by
      intro q hq
      refine hclosed a haB q ?_
      simp only [childAddrs, hla, Obj.children]
      exact List.mem_filterMap.mpr ⟨kv, hkv, hq⟩
    rcases hvv : kv.2 with _ | i | q | q
    · simp [LiveVal]
    · simp [LiveVal]
    · rw [hvv] at hlv
      simp only [LiveVal] at hlv ⊢
      obtain ⟨pr', m', hq⟩ := hlv
      have hqB := hchild q (by rw [hvv]; rfl)
      exact ⟨pr', m', by rw [hlk, if_pos hqB]; exact hq⟩
    · rw [hvv] at hlv
      simp only [LiveVal] at hlv ⊢
      obtain ⟨env', bi', hq⟩ := hlv
      have hqB := hchild q (by rw [hvv]; rfl)
      exact ⟨env', bi', by rw [hlk, if_pos hqB]; exact hq⟩
  · intro a ha
    have hroot : a ∈ rootAddrs s := List.mem_append.mpr (.inr ha)
    obtain ⟨pr, m, hm⟩ := henv a ha
    exact ⟨pr, m, by rw [hlk, if_pos (hroots a hroot)]; exact hm⟩
  · intro v hv
    have hlv := heval v hv
    rcases hvv : v with _ | i | q | q
    · simp [LiveVal]
    · simp [LiveVal]
    · rw [hvv] at hlv
      simp only [LiveVal] at hlv ⊢
      obtain ⟨pr', m', hq⟩ := hlv
      have hroot : q ∈ rootAddrs s := by
        refine List.mem_append.mpr (.inl ?_)
        refine List.mem_filterMap.mpr ⟨v, hv, by rw [hvv]; rfl⟩
      exact ⟨pr', m', by rw [hlk, if_pos (hroots q hroot)]; exact hq⟩
    · rw [hvv] at hlv
      simp only [LiveVal] at hlv ⊢
      obtain ⟨env', bi', hq⟩ := hlv
      have hroot : q ∈ rootAddrs s := by
        refine List.mem_append.mpr (.inl ?_)
        refine List.mem_filterMap.mpr ⟨v, hv, by rw [hvv]; rfl⟩
      exact ⟨env', bi', by rw [hlk, if_pos (hroots q hroot)]; exact hq⟩
  · intro p hp
    rw [hheap] at hp
    exact hbound p (List.mem_of_mem_filter hp)
  · rw [hheap]
    exact hnd.sublist (List.Sublist.map Prod.fst (List.filter_sublist s.heap))

theorem gcPhase_preserves (prog : Program) (mode : Mode) (s : VMState) (hwf : StateWF prog s) :
    StateWF prog (gcPhase mode s) ∧ (gcPhase mode s).evalstack = s.evalstack ∧
    (gcPhase mode s).retstack = s.retstack ∧ (gcPhase mode s).envstack = s.envstack ∧
    (gcPhase mode s).pc = s.pc ∧ (gcPhase mode s).nextAddr = s.nextAddr := by
  cases mode with
  | debug =>
    exact ⟨markAndSweep_preserves prog s hwf, rfl, rfl, rfl, rfl, rfl⟩
  | prod =>
    simp only [gcPhase, stepGc]
    by_cases hc : 0 ≤ s.threshold ∧ s.threshold ≤ (s.heap.length : Int)
    · rw [if_pos hc]
      exact ⟨markAndSweep_preserves prog s hwf, rfl, rfl, rfl, rfl, rfl⟩
    · rw [if_neg hc]
      exact ⟨⟨⟨hwf.1.1, hwf.1.2⟩, hwf.2.1, hwf.2.2.1, hwf.2.2.2.1, hwf.2.2.2.2⟩,
        rfl, rfl, rfl, rfl, rfl⟩

theorem lookupObj_append₁ {h : Heap} {a : Nat} {o : Obj} (h₂ : Heap)
    (hl : lookupObj h a = some o) : lookupObj (h ++ h₂) a = some o := by
  induction h with
  | nil => simp [lookupObj] at hl
  | cons p t ih =>
    obtain ⟨x, ox⟩ := p
    by_cases hx : x = a
    · subst hx
      simp only [lookupObj, if_pos rfl] at hl ⊢
      exact hl
    · simp only [lookupObj, if_neg hx] at hl ⊢
      exact ih hl

theorem lookupObj_update_ne {h : Heap} {x : Nat} {o : Obj} {a : Nat} (hne : a ≠ x) :
    lookupObj (updateObj h x o) a = lookupObj h a := by
  induction h with
  | nil => simp [updateObj]
  | cons p t ih =>
    obtain ⟨y, oy⟩ := p
    by_cases hy : y = x
    · subst hy
      simp only [updateObj, if_pos rfl, lookupObj]
      rw [if_neg (fun hh => hne hh.symm), if_neg (fun hh => hne hh.symm)]
    · simp only [updateObj, if_neg hy, lookupObj]
      by_cases hya : y = a
      · rw [if_pos hya, if_pos hya]
      · rw [if_neg hya, if_neg hya]
        exact ih

theorem updateObj_map_fst (h : Heap) (x : Nat) (o : Obj) :
    (updateObj h x o).map Prod.fst = h.map Prod.fst := by
  induction h with
  | nil => simp [updateObj]
  | cons p t ih =>
    obtain ⟨y, oy⟩ := p
    by_cases hy : y = x
    · simp [updateObj, hy]
    · simp [updateObj, hy, ih]

theorem LiveVal_append {h : Heap} (h₂ : Heap) {v : Value} (hv : LiveVal h v) :
    LiveVal (h ++ h₂) v := by
  rcases v with _ | i | a | a
  · trivial
  · trivial
  · obtain ⟨pr, m, hl⟩ := hv
    exact ⟨pr, m, lookupObj_append₁ h₂ hl⟩
  · obtain ⟨env, bi, hl⟩ := hv
    exact ⟨env, bi, lookupObj_append₁ h₂ hl⟩

theorem LiveVal_update_table {h : Heap} {x : Nat} {pr : Option Nat} {m : List (Ident × Value)}
    {pr' : Option Nat} {m' : List (Ident × Value)} {v : Value}
    (hx : lookupObj h x = some (.table pr m)) (hv : LiveVal h v) :
    LiveVal (updateObj h x (.table pr' m')) v := by
  rcases v with _ | i | a | a
  · trivial
  · trivial
  · obtain ⟨pra, ma, hl⟩ := hv
    by_cases hax : a = x
    · subst hax
      exact ⟨pr', m', lookupObj_update_self h a _ _ hl⟩
    · exact ⟨pra, ma, by rw [lookupObj_update_ne hax]; exact hl⟩
  · obtain ⟨env, bi, hl⟩ := hv
    by_cases hax : a = x
    · subst hax
      rw [hx] at hl
      cases hl
    · exact ⟨env, bi, by rw [lookupObj_update_ne hax]; exact hl⟩

theorem mapLookup_mem {m : List (Ident × Value)} {key : Ident} {v : Value}
    (hm : mapLookup m key = some v) : (key, v) ∈ m := by
  induction m with
  | nil => simp [mapLookup] at hm
  | cons kv t ih =>
    obtain ⟨k, w⟩ := kv
    by_cases hk : k = key
    · subst hk
      simp only [mapLookup, if_pos rfl] at hm
      cases hm
      exact List.mem_cons_self _ _
    · simp only [mapLookup, if_neg hk] at hm
      exact List.mem_cons_of_mem _ (ih hm)

theorem tableGet_spec {h : Heap} : ∀ {fuel : Nat} {a : Nat} {key : Ident} {v : Value},
    tableGet h a key fuel = .ok v →
    ∃ a' pr m, lookupObj h a' = some (.table pr m) ∧ mapLookup m key = some v := by
  intro fuel
  induction fuel with
  | zero => intro a key v hg; simp [tableGet] at hg
  | succ f ih =>
    intro a key v hg
    rw [tableGet] at hg
    split at hg
    · rename_i proto m hla
      split at hg
      · rename_i w hm
        cases hg
        exact ⟨a, proto, m, hla, hm⟩
      · rename_i hm
        split at hg
        · cases hg
        · exact ih hg
    · cases hg

theorem tableDeclare_spec {h : Heap} {a : Nat} {key : Ident} {v : Value} {h' : Heap}
    (hd : tableDeclare h a key v = .ok h') :
    ∃ pr m, lookupObj h a = some (.table pr m) ∧ mapLookup m key = none ∧
      h' = updateObj h a (.table pr (m ++ [(key, v)])) := by
  unfold tableDeclare at hd
  split at hd
  · rename_i proto m hla
    split at hd
    · rename_i hm
      cases hd
      exact ⟨proto, m, hla, hm, rfl⟩
    · cases hd
  · cases hd

theorem bindArgs_spec : ∀ (ps : List Ident) (vs : List Value) (h : Heap) (env : Nat)
    (pr : Option Nat) (m₀ : List (Ident × Value)) (h' : Heap),
    lookupObj h env = some (.table pr m₀) →
    bindArgs h env ps vs = .ok h' →
    (∀ a, a ≠ env → lookupObj h' a = lookupObj h a) ∧
    (∃ m', lookupObj h' env = some (.table pr m') ∧
      (∀ kv ∈ m', kv ∈ m₀ ∨ kv.2 ∈ vs)) ∧
    h'.map Prod.fst = h.map Prod.fst := by
  intro ps
  induction ps with
  | nil =>
    intro vs h env pr m₀ h' hl hb
    simp only [bindArgs] at hb
    cases hb
    exact ⟨fun a _ => rfl, ⟨m₀, hl, fun kv hkv => .inl hkv⟩, rfl⟩
  | cons p pt ih =>
    intro vs h env pr m₀ h' hl hb
    cases vs with
    | nil => simp [bindArgs] at hb
    | cons v vt =>
      simp only [bindArgs] at hb
      rcases hd : tableDeclare h env p v with m₁ | h₁
      · rw [hd] at hb
        cases hb
      · rw [hd] at hb
        obtain ⟨pr₁, m₁, hl₁, hml₁, hupd⟩ := tableDeclare_spec hd
        rw [hl] at hl₁
        cases hl₁
        have hl₂ : lookupObj h₁ env = some (.table pr (m₀ ++ [(p, v)])) := by
          rw [hupd]
          exact lookupObj_update_self h env _ _ hl
        obtain ⟨hne, ⟨m', hm', hmem⟩, hfst⟩ := ih vt h₁ env pr (m₀ ++ [(p, v)]) h' hl₂ hb
        refine ⟨?_, ⟨m', hm', ?_⟩, ?_⟩
        · intro a ha
          rw [hne a ha, hupd, lookupObj_update_ne ha]
        · intro kv hkv
          rcases hmem kv hkv with hin | hin
          · rcases List.mem_append.mp hin with hin' | hin'
            · exact .inl hin'
            · simp only [List.mem_singleton] at hin'
              subst hin'
              exact .inr (by simp)
          · exact .inr (List.mem_cons_of_mem _ hin)
        · rw [hfst, hupd, updateObj_map_fst]

theorem lookupObj_append_elim {h h₂ : Heap} {a : Nat} {o : Obj}
    (hl : lookupObj (h ++ h₂) a = some o) :
    lookupObj h a = some o ∨ (lookupObj h a = none ∧ lookupObj h₂ a = some o) := by
  induction h with
  | nil => exact .inr ⟨rfl, hl⟩
  | cons p t ih =>
    obtain ⟨x, ox⟩ := p
    by_cases hx : x = a
    · subst hx
      simp only [List.cons_append, lookupObj, if_pos rfl] at hl ⊢
      exact .inl hl
    · simp only [List.cons_append, lookupObj, if_neg hx] at hl ⊢
      exact ih hl

theorem LiveVal_table_congr {h h' : Heap} {env : Nat} {pr pr' : Option Nat}
    {m m' : List (Ident × Value)}
    (hne : ∀ a, a ≠ env → lookupObj h' a = lookupObj h a)
    (h₀ : lookupObj h env = some (.table pr m))
    (h₁ : lookupObj h' env = some (.table pr' m')) {v : Value}
    (hv : LiveVal h v) : LiveVal h' v := by
  rcases v with _ | i | a | a
  · trivial
  · trivial
  · obtain ⟨pra, ma, hl⟩ := hv
    by_cases ha : a = env
    · subst ha
      exact ⟨pr', m', h₁⟩
    · exact ⟨pra, ma, by rw [hne a ha]; exact hl⟩
  · obtain ⟨enva, bia, hl⟩ := hv
    by_cases ha : a = env
    · subst ha
      rw [h₀] at hl
      cases hl
    · exact ⟨enva, bia, by rw [hne a ha]; exact hl⟩

theorem stateWF_same_heap {prog : Program} {s t : VMState} (hwf : StateWF prog s)
    (hh : t.heap = s.heap) (hn : t.nextAddr = s.nextAddr)
    (hvs : ∀ v ∈ t.evalstack, LiveVal s.heap v)
    (hes : ∀ a ∈ t.envstack, ∃ pr m, lookupObj s.heap a = some (.table pr m)) :
    StateWF prog t := by
  obtain ⟨hheap, henv, heval, hbound, hnd⟩ := hwf
  refine ⟨?_, ?_, ?_, ?_, ?_⟩
  · rw [hh]
    exact hheap
  · rw [hh]
    exact hes
  · rw [hh]
    exact hvs
  · rw [hh, hn]
    exact hbound
  · rw [hh]
    exact hnd

theorem stateWF_alloc_table {prog : Program} {s : VMState} (hwf : StateWF prog s)
    (pr : Option Nat) :
    StateWF prog { s with heap := s.heap ++ [(s.nextAddr, .table pr [])],
                          nextAddr := s.nextAddr + 1 } ∧
    lookupObj (s.heap ++ [(s.nextAddr, .table pr [])]) s.nextAddr = some (.table pr []) := by
  obtain ⟨⟨hfun, htab⟩, henv, heval, hbound, hnd⟩ := hwf
  have hfresh : ∀ p ∈ s.heap, p.1 ≠ s.nextAddr := fun p hp => by
    have := hbound p hp
    omega
  have hlknew := lookupObj_append_fresh s.heap s.nextAddr (.table pr []) hfresh
  refine ⟨⟨⟨?_, ?_⟩, ?_, ?_, ?_, ?_⟩, hlknew⟩
  · intro a env bi hla
    rcases lookupObj_append_elim hla with hl | ⟨_, hl⟩
    · exact hfun a env bi hl
    · simp only [lookupObj] at hl
      split at hl
      · cases hl
      · cases hl
  · intro a pra ma hla kv hkv
    rcases lookupObj_append_elim hla with hl | ⟨_, hl⟩
    · exact LiveVal_append _ (htab a pra ma hl kv hkv)
    · simp only [lookupObj] at hl
      split at hl
      · cases hl
        simp at hkv
      · cases hl
  · intro a ha
    obtain ⟨pra, ma, hm⟩ := henv a ha
    exact ⟨pra, ma, lookupObj_append₁ _ hm⟩
  · intro v hv
    exact LiveVal_append _ (heval v hv)
  · intro p hp
    show p.1 < s.nextAddr + 1
    rcases List.mem_append.mp hp with hp' | hp'
    · have := hbound p hp'
      omega
    · simp at hp'
      simp [hp']
  · rw [List.map_append]
    rw [List.nodup_append]
    refine ⟨hnd, List.nodup_singleton _, ?_⟩
    intro x hx hx'
    simp at hx'
    subst hx'
    obtain ⟨p, hp, hpx⟩ := List.mem_map.mp hx
    exact hfresh p hp hpx

theorem stateWF_alloc_function {prog : Program} {s : VMState} (hwf : StateWF prog s)
    (env bi : Nat) (hbi : BlobOK prog bi) :
    StateWF prog { s with heap := s.heap ++ [(s.nextAddr, .function env bi)],
                          nextAddr := s.nextAddr + 1 } ∧
    lookupObj (s.heap ++ [(s.nextAddr, .function env bi)]) s.nextAddr =
      some (.function env bi) := by
  obtain ⟨⟨hfun, htab⟩, henv, heval, hbound, hnd⟩ := hwf
  have hfresh : ∀ p ∈ s.heap, p.1 ≠ s.nextAddr := fun p hp => by
    have := hbound p hp
    omega
  have hlknew := lookupObj_append_fresh s.heap s.nextAddr (.function env bi) hfresh
  refine ⟨⟨⟨?_, ?_⟩, ?_, ?_, ?_, ?_⟩, hlknew⟩
  · intro a enva bia hla
    rcases lookupObj_append_elim hla with hl | ⟨_, hl⟩
    · exact hfun a enva bia hl
    · simp only [lookupObj] at hl
      split at hl
      · rename_i heq
        cases hl
        exact hbi
      · cases hl
  · intro a pra ma hla kv hkv
    rcases lookupObj_append_elim hla with hl | ⟨_, hl⟩
    · exact LiveVal_append _ (htab a pra ma hl kv hkv)
    · simp only [lookupObj] at hl
      split at hl
      · cases hl
      · cases hl
  · intro a ha
    obtain ⟨pra, ma, hm⟩ := henv a ha
    exact ⟨pra, ma, lookupObj_append₁ _ hm⟩
  · intro v hv
    exact LiveVal_append _ (heval v hv)
  · intro p hp
    show p.1 < s.nextAddr + 1
    rcases List.mem_append.mp hp with hp' | hp'
    · have := hbound p hp'
      omega
    · simp at hp'
      simp [hp']
  · rw [List.map_append, List.nodup_append]
    refine ⟨hnd, List.nodup_singleton _, ?_⟩
    intro x hx hx'
    simp at hx'
    subst hx'
    obtain ⟨p, hp, hpx⟩ := List.mem_map.mp hx
    exact hfresh p hp hpx

theorem stateWF_declare {prog : Program} {s : VMState} {env : Nat} {name : Ident} {v : Value}
    {h' : Heap} (hwf : StateWF prog s) (hv : LiveVal s.heap v)
    (hd : tableDeclare s.heap env name v = .ok h') :
    StateWF prog { s with heap := h' } := by
  obtain ⟨pr, m, hla, hml, hupd⟩ := tableDeclare_spec hd
  obtain ⟨⟨hfun, htab⟩, henv, heval, hbound, hnd⟩ := hwf
  have hlk' : lookupObj h' env = some (.table pr (m ++ [(name, v)])) := by
    rw [hupd]
    exact lookupObj_update_self s.heap env _ _ hla
  have hne : ∀ a, a ≠ env → lookupObj h' a = lookupObj s.heap a := by
    intro a ha
    rw [hupd, lookupObj_update_ne ha]
  refine ⟨⟨?_, ?_⟩, ?_, ?_, ?_, ?_⟩
  · intro a enva bia hla'
    by_cases ha : a = env
    · subst ha
      rw [hlk'] at hla'
      cases hla'
    · rw [hne a ha] at hla'
      exact hfun a enva bia hla'
  · intro a pra ma hla' kv hkv
    by_cases ha : a = env
    · subst ha
      rw [hlk'] at hla'
      cases hla'
      rcases List.mem_append.mp hkv with hkv' | hkv'
      · exact LiveVal_table_congr hne hla hlk' (htab a pr m hla kv hkv')
      · simp only [List.mem_singleton] at hkv'
        subst hkv'
        exact LiveVal_table_congr hne hla hlk' hv
    · rw [hne a ha] at hla'
      exact LiveVal_table_congr hne hla hlk' (htab a pra ma hla' kv hkv)
  · intro a ha
    obtain ⟨pra, ma, hm⟩ := henv a ha
    by_cases haenv : a = env
    · subst haenv
      exact ⟨pr, m ++ [(name, v)], hlk'⟩
    · exact ⟨pra, ma, by rw [hne a haenv]; exact hm⟩
  · intro w hw
    exact LiveVal_table_congr hne hla hlk' (heval w hw)
  · intro p hp
    have hfst : h'.map Prod.fst = s.heap.map Prod.fst := by
      rw [hupd, updateObj_map_fst]
    have : p.1 ∈ s.heap.map Prod.fst := by
      rw [← hfst]
      exact List.mem_map.mpr ⟨p, hp, rfl⟩
    obtain ⟨q, hq, hqe⟩ := List.mem_map.mp this
    rw [← hqe]
    exact hbound q hq
  · rw [hupd, updateObj_map_fst]
    exact hnd

theorem stateWF_bindArgs {prog : Program} {s : VMState} {env : Nat} {ps : List Ident}
    {vs : List Value} {h' : Heap} {pr : Option Nat} {m₀ : List (Ident × Value)}
    (hwf : StateWF prog s) (hl : lookupObj s.heap env = some (.table pr m₀))
    (hvs : ∀ v ∈ vs, LiveVal s.heap v)
    (hb : bindArgs s.heap env ps vs = .ok h') :
    StateWF prog { s with heap := h' } := by
  obtain ⟨hne, ⟨m', hm', hmem⟩, hfst⟩ := bindArgs_spec ps vs s.heap env pr m₀ h' hl hb
  obtain ⟨⟨hfun, htab⟩, henv, heval, hbound, hnd⟩ := hwf
  refine ⟨⟨?_, ?_⟩, ?_, ?_, ?_, ?_⟩
  · intro a enva bia hla'
    by_cases ha : a = env
    · subst ha
      rw [hm'] at hla'
      cases hla'
    · rw [hne a ha] at hla'
      exact hfun a enva bia hla'
  · intro a pra ma hla' kv hkv
    by_cases ha : a = env
    · subst ha
      rw [hm'] at hla'
      cases hla'
      rcases hmem kv hkv with hin | hin
      · exact LiveVal_table_congr hne hl hm' (htab a pr m₀ hl kv hin)
      · exact LiveVal_table_congr hne hl hm' (hvs kv.2 hin)
    · rw [hne a ha] at hla'
      exact LiveVal_table_congr hne hl hm' (htab a pra ma hla' kv hkv)
  · intro a ha
    by_cases haenv : a = env
    · subst haenv
      exact ⟨pr, m', hm'⟩
    · obtain ⟨pra, ma, hmm⟩ := henv a ha
      exact ⟨pra, ma, by rw [hne a haenv]; exact hmm⟩
  · intro w hw
    exact LiveVal_table_congr hne hl hm' (heval w hw)
  · intro p hp
    show p.1 < s.nextAddr
    have : p.1 ∈ s.heap.map Prod.fst := by
      rw [← hfst]
      exact List.mem_map.mpr ⟨p, hp, rfl⟩
    obtain ⟨q, hq, hqe⟩ := List.mem_map.mp this
    rw [← hqe]
    exact hbound q hq
  · show (h'.map Prod.fst).Nodup
    rw [hfst]
    exact hnd

theorem getD_front {α : Type} (mid post : List α) (j : Nat) (hj : j < mid.length) (d : α) :
    (mid ++ post).getD j d = mid.getD j d := by
  induction mid generalizing j with
  | nil => simp at hj
  | cons x t ih =>
    cases j with
    | zero => rfl
    | succ j' =>
      simp only [List.length_cons] at hj
      simpa [List.getD] using ih j' (by omega)

theorem getD_append_chunk {α : Type} (pre mid post : List α) (j : Nat) (hj : j < mid.length)
    (d : α) : (pre ++ mid ++ post).getD (pre.length + j) d = mid.getD j d := by
  induction pre with
  | nil => simpa using getD_front mid post j hj d
  | cons x t ih =>
    simpa [List.getD, Nat.add_right_comm, Nat.succ_add] using ih

theorem seg_fetch {prog : Program} {b i : Nat} {code : List Instr}
    (hseg : SegAt prog b i code) {j : Nat} (hj : j < code.length) :
    pcDone prog ⟨b, ((i + j : Nat) : Int)⟩ = false ∧
    pcGet prog ⟨b, ((i + j : Nat) : Int)⟩ = code.getD j .invalid := by
  obtain ⟨pre, post, heq, hlen⟩ := hseg
  constructor
  · simp only [pcDone, Bool.or_eq_false_iff, decide_eq_false_iff_not, not_lt, not_le, heq]
    constructor
    · omega
    · simp only [List.length_append]
      push_cast
      omega
  · simp only [pcGet, heq, Int.toNat_natCast]
    rw [← hlen]
    exact getD_append_chunk pre code post j hj .invalid

theorem seg_done {prog : Program} {b : Nat} {code : List Instr}
    (hfull : (prog.blobAt b).instructions.length = code.length) :
    pcDone prog ⟨b, ((code.length : Nat) : Int)⟩ = true := by
  simp only [pcDone, Bool.or_eq_true, decide_eq_true_eq]
  right
  rw [hfull]

theorem segAt_left {prog : Program} {b i : Nat} {X Y : List Instr}
    (h : SegAt prog b i (X ++ Y)) : SegAt prog b i X := by
  obtain ⟨pre, post, heq, hlen⟩ := h
  exact ⟨pre, Y ++ post, by rw [heq]; simp, hlen⟩

theorem segAt_right {prog : Program} {b i : Nat} {X Y : List Instr}
    (h : SegAt prog b i (X ++ Y)) : SegAt prog b (i + X.length) Y := by
  obtain ⟨pre, post, heq, hlen⟩ := h
  exact ⟨pre ++ X, post, by rw [heq]; simp, by simp [hlen]⟩

theorem segAt_cons_head {prog : Program} {b i : Nat} {x : Instr} {Z : List Instr}
    (h : SegAt prog b i (x :: Z)) : SegAt prog b i [x] := by
  have h' : SegAt prog b i ([x] ++ Z) := by simpa using h
  exact segAt_left h'

theorem segAt_cons_tail {prog : Program} {b i : Nat} {x : Instr} {Z : List Instr}
    (h : SegAt prog b i (x :: Z)) : SegAt prog b (i + 1) Z := by
  have h' : SegAt prog b i ([x] ++ Z) := by simpa using h
  have := segAt_right h'
  simpa using this

theorem placed_append {prog : Program} {k : Nat} {B1 B2 : List Blob}
    (h : Placed prog k (B1 ++ B2)) : Placed prog k B1 ∧ Placed prog (k + B1.length) B2 := by
  constructor
  · intro j hj
    have := h j (by simp; omega)
    rw [this]
    have := getD_front B1 B2 j hj ⟨[], []⟩
    rw [this]
  · intro j hj
    have h2 := h (B1.length + j) (by simp; omega)
    rw [show k + B1.length + j = k + (B1.length + j) from by omega, h2]
    have := getD_append_chunk B1 B2 [] j hj ⟨[], []⟩
    simpa using this

theorem fetch_single {prog : Program} {b i : Nat} {x : Instr}
    (hseg : SegAt prog b i [x]) :
    pcDone prog ⟨b, ((i : Nat) : Int)⟩ = false ∧
    pcGet prog ⟨b, ((i : Nat) : Int)⟩ = x := by
  have h0 : (0 : Nat) < [x].length := by simp
  have := seg_fetch hseg h0
  simpa using this

theorem gcPhase_fields (mode : Mode) (s : VMState) :
    (gcPhase mode s).evalstack = s.evalstack ∧ (gcPhase mode s).retstack = s.retstack ∧
    (gcPhase mode s).envstack = s.envstack ∧ (gcPhase mode s).pc = s.pc ∧
    (gcPhase mode s).nextAddr = s.nextAddr := by
  cases mode with
  | debug => exact ⟨rfl, rfl, rfl, rfl, rfl⟩
  | prod =>
    simp only [gcPhase, stepGc]
    by_cases hc : 0 ≤ s.threshold ∧ s.threshold ≤ (s.heap.length : Int)
    · rw [if_pos hc]
      exact ⟨rfl, rfl, rfl, rfl, rfl⟩
    · rw [if_neg hc]
      exact ⟨rfl, rfl, rfl, rfl, rfl⟩

theorem stepsN_one {prog : Program} {mode : Mode} {s s₁ : VMState}
    (h1 : isFinal prog s = false) (h2 : stepIter prog mode s = .ok s₁) :
    StepsN prog mode 1 s s₁ :=
  StepsN.more h1 h2 (StepsN.zero s₁)

theorem isFinal_of_notdone {prog : Program} {s : VMState}
    (h : pcDone prog s.pc = false) : isFinal prog s = false := by
  simp [isFinal, h]

theorem exec_one {prog : Program} {mode : Mode} {n : Nat} {s sf : VMState}
    (hsteps : StepsN prog mode n s sf) (hfin : isFinal prog sf = true)
    (hdone : pcDone prog s.pc = false) :
    ∃ n' s₁, n = n' + 1 ∧ StepsN prog mode n' s₁ sf ∧
      stepIter prog mode s = .ok s₁ ∧
      execInstr prog (gcPhase mode s) (pcGet prog s.pc) = .ok s₁ := by
  obtain ⟨n', s₁, hn, hstep, hrest⟩ := steps_head hsteps hfin (isFinal_of_notdone hdone)
  refine ⟨n', s₁, hn, hrest, hstep, ?_⟩
  have hpc : (gcPhase mode s).pc = s.pc := (gcPhase_fields mode s).2.2.2.1
  rw [stepIter, hpc, if_neg (by rw [hdone]; exact Bool.false_ne_true)] at hstep
  exact hstep

theorem exec_return {prog : Program} {mode : Mode} {n : Nat} {s sf : VMState}
    (hsteps : StepsN prog mode n s sf) (hfin : isFinal prog sf = true)
    (hdone : pcDone prog s.pc = true) (hret : s.retstack ≠ []) :
    ∃ n' s₁, n = n' + 1 ∧ StepsN prog mode n' s₁ sf ∧
      stepIter prog mode s = .ok s₁ ∧
      (∀ r rs a es, s.retstack = r :: rs → s.envstack = a :: es →
        s₁ = { gcPhase mode s with pc := r, retstack := rs, envstack := es }) := by
  have hnf : isFinal prog s = false := by
    simp only [isFinal, Bool.and_eq_false_iff]
    left
    simpa [List.isEmpty_iff] using hret
  obtain ⟨n', s₁, hn, hstep, hrest⟩ := steps_head hsteps hfin hnf
  refine ⟨n', s₁, hn, hrest, hstep, ?_⟩
  intro r rs a es hr he
  have hpc : (gcPhase mode s).pc = s.pc := (gcPhase_fields mode s).2.2.2.1
  have hrs : (gcPhase mode s).retstack = s.retstack := (gcPhase_fields mode s).2.1
  have hes : (gcPhase mode s).envstack = s.envstack := (gcPhase_fields mode s).2.2.1
  rw [stepIter, hpc, if_pos hdone, hrs, hes, hr, he] at hstep
  cases hstep
  rfl

theorem pc_incr_nat (b i : Nat) : (PC.mk b ((i : Nat) : Int)).incr = PC.mk b ((i + 1 : Nat) : Int) := by
  simp [PC.incr]

theorem frame_single {prog : Program} {mode : Mode} {n : Nat} {s sf : VMState} {b i : Nat}
    {x : Instr}
    (hsteps : StepsN prog mode n s sf) (hfin : isFinal prog sf = true)
    (hpc : s.pc = ⟨b, (i : Int)⟩) (hseg : SegAt prog b i [x]) (hwf : StateWF prog s)
    (hspec : ∀ t s₁ : VMState, StateWF prog t → t.envstack = s.envstack →
      t.evalstack = s.evalstack → t.retstack = s.retstack → t.pc = s.pc →
      execInstr prog t x = .ok s₁ →
      ∃ v, s₁.pc = t.pc.incr ∧ s₁.evalstack = v :: t.evalstack ∧
        s₁.envstack = t.envstack ∧ s₁.retstack = t.retstack ∧ StateWF prog s₁) :
    ∃ m s' v, m ≤ n ∧ 1 ≤ m ∧ StepsN prog mode m s s' ∧ StepsN prog mode (n - m) s' sf ∧
      s'.pc = ⟨b, ((i + 1 : Nat) : Int)⟩ ∧ s'.evalstack = v :: s.evalstack ∧
      s'.envstack = s.envstack ∧ s'.retstack = s.retstack ∧ StateWF prog s' := by
  obtain ⟨hnd, hget⟩ := fetch_single hseg
  rw [← hpc] at hnd hget
  obtain ⟨n', s₁, hn, hrest, hstep, hexec⟩ := exec_one hsteps hfin hnd
  rw [hget] at hexec
  obtain ⟨gf1, gf2, gf3, gf4, gf5⟩ := gcPhase_fields mode s
  have gwf := gcPhase_preserves prog mode s hwf
  obtain ⟨v, hp1, hp2, hp3, hp4, hp5⟩ := hspec (gcPhase mode s) s₁ gwf.1 gf3 gf1 gf2 gf4 hexec
  refine ⟨1, s₁, v, by omega, le_rfl, stepsN_one (isFinal_of_notdone hnd) hstep, ?_, ?_, ?_, ?_, ?_, hp5⟩
  · rw [show n - 1 = n' from by omega]
    exact hrest
  · rw [hp1, gf4, hpc, pc_incr_nat]
  · rw [hp2, gf1]
  · rw [hp3, gf3]
  · rw [hp4, gf2]

theorem exec_pushNil_inv {prog : Program} {t s₁ : VMState} (hwf : StateWF prog t)
    (hexec : execInstr prog t .pushNil = .ok s₁) :
    ∃ v, s₁.pc = t.pc.incr ∧ s₁.evalstack = v :: t.evalstack ∧
      s₁.envstack = t.envstack ∧ s₁.retstack = t.retstack ∧ StateWF prog s₁ := by
  simp only [execInstr, StepRes.ok.injEq] at hexec
  subst hexec
  refine ⟨.nil, rfl, rfl, rfl, rfl, ?_⟩
  refine stateWF_same_heap hwf rfl rfl ?_ hwf.2.1
  intro v hv
  rcases List.mem_cons.mp hv with rfl | hv'
  · trivial
  · exact hwf.2.2.1 v hv'

theorem exec_pushInteger_inv {prog : Program} {t s₁ : VMState} {j : Int}
    (hwf : StateWF prog t) (hexec : execInstr prog t (.pushInteger j) = .ok s₁) :
    ∃ v, s₁.pc = t.pc.incr ∧ s₁.evalstack = v :: t.evalstack ∧
      s₁.envstack = t.envstack ∧ s₁.retstack = t.retstack ∧ StateWF prog s₁ := by
  simp only [execInstr, StepRes.ok.injEq] at hexec
  subst hexec
  refine ⟨.integer j, rfl, rfl, rfl, rfl, ?_⟩
  refine stateWF_same_heap hwf rfl rfl ?_ hwf.2.1
  intro v hv
  rcases List.mem_cons.mp hv with rfl | hv'
  · trivial
  · exact hwf.2.2.1 v hv'

theorem exec_pushVariable_inv {prog : Program} {t s₁ : VMState} {name : Ident}
    (hwf : StateWF prog t) (hexec : execInstr prog t (.pushVariable name) = .ok s₁) :
    ∃ v, s₁.pc = t.pc.incr ∧ s₁.evalstack = v :: t.evalstack ∧
      s₁.envstack = t.envstack ∧ s₁.retstack = t.retstack ∧ StateWF prog s₁ := by
  simp only [execInstr] at hexec
  split at hexec
  · cases hexec
  · rename_i env es henv
    split at hexec
    · rename_i v hget
      simp only [StepRes.ok.injEq] at hexec
      subst hexec
      refine ⟨v, rfl, rfl, rfl, rfl, ?_⟩
      refine stateWF_same_heap hwf rfl rfl ?_ hwf.2.1
      intro w hw
      rcases List.mem_cons.mp hw with rfl | hw'
      · obtain ⟨a', pr, m, hla, hml⟩ := tableGet_spec hget
        exact hwf.1.2 a' pr m hla (name, w) (mapLookup_mem hml)
      · exact hwf.2.2.1 w hw'
    · cases hexec

theorem exec_pushFunction_inv {prog : Program} {t s₁ : VMState} {bidx : Nat}
    (hwf : StateWF prog t) (hok : BlobOK prog bidx)
    (hexec : execInstr prog t (.pushFunction bidx) = .ok s₁) :
    ∃ v, s₁.pc = t.pc.incr ∧ s₁.evalstack = v :: t.evalstack ∧
      s₁.envstack = t.envstack ∧ s₁.retstack = t.retstack ∧ StateWF prog s₁ := by
  simp only [execInstr] at hexec
  split at hexec
  · cases hexec
  · rename_i cur es henv
    simp only [VMState.alloc, StepRes.ok.injEq] at hexec
    subst hexec
    obtain ⟨hwf', hlk'⟩ := stateWF_alloc_function hwf cur bidx hok
    refine ⟨.function t.nextAddr, rfl, rfl, rfl, rfl, ?_⟩
    refine stateWF_same_heap hwf' rfl rfl ?_ ?_
    · intro w hw
      rcases List.mem_cons.mp hw with rfl | hw'
      · exact ⟨cur, bidx, hlk'⟩
      · exact LiveVal_append _ (hwf.2.2.1 w hw')
    · intro a ha
      obtain ⟨pr, m, hm⟩ := hwf.2.1 a ha
      exact ⟨pr, m, lookupObj_append₁ _ hm⟩

theorem exec_declare_inv {prog : Program} {t s₁ : VMState} {name : Ident}
    (hwf : StateWF prog t) (hexec : execInstr prog t (.declareVariable name) = .ok s₁) :
    s₁.pc = t.pc.incr ∧ s₁.evalstack = t.evalstack ∧ s₁.envstack = t.envstack ∧
    s₁.retstack = t.retstack ∧ StateWF prog s₁ := by
  simp only [execInstr] at hexec
  split at hexec
  · rename_i env es v vs henv hev
    split at hexec
    · rename_i h' hd
      simp only [StepRes.ok.injEq] at hexec
      subst hexec
      have hv : LiveVal t.heap v := hwf.2.2.1 v (by rw [hev]; exact List.mem_cons_self _ _)
      have hwf2 := stateWF_declare hwf hv hd
      exact ⟨rfl, rfl, rfl, rfl,
        stateWF_same_heap hwf2 rfl rfl hwf2.2.2.1 hwf2.2.1⟩
    · cases hexec
  · cases hexec

theorem exec_debugPrint_inv {prog : Program} {t s₁ : VMState}
    (hwf : StateWF prog t) (hexec : execInstr prog t .debugPrint = .ok s₁) :
    s₁.pc = t.pc.incr ∧ s₁.evalstack = t.evalstack ∧ s₁.envstack = t.envstack ∧
    s₁.retstack = t.retstack ∧ StateWF prog s₁ := by
  simp only [execInstr] at hexec
  split at hexec
  · cases hexec
  · rename_i v vs hev
    simp only [StepRes.ok.injEq] at hexec
    subst hexec
    exact ⟨rfl, rfl, rfl, rfl, stateWF_same_heap hwf rfl rfl hwf.2.2.1 hwf.2.1⟩

theorem exec_pop_inv {prog : Program} {t s₁ : VMState} {w : Value} {rest : List Value}
    (hwf : StateWF prog t) (hev : t.evalstack = w :: rest)
    (hexec : execInstr prog t .pop = .ok s₁) :
    s₁.pc = t.pc.incr ∧ s₁.evalstack = rest ∧ s₁.envstack = t.envstack ∧
    s₁.retstack = t.retstack ∧ StateWF prog s₁ := by
  simp only [execInstr] at hexec
  split at hexec
  · rename_i hev'
    rw [hev'] at hev
    cases hev
  · rename_i w' rest' hev'
    rw [hev'] at hev
    cases hev
    simp only [StepRes.ok.injEq] at hexec
    subst hexec
    refine ⟨rfl, rfl, rfl, rfl, stateWF_same_heap hwf rfl rfl ?_ hwf.2.1⟩
    intro v hv
    exact hwf.2.2.1 v (by rw [hev']; exact List.mem_cons_of_mem _ hv)

theorem exec_blockStart_inv {prog : Program} {t s₁ : VMState}
    (hwf : StateWF prog t) (henv : t.envstack ≠ [])
    (hexec : execInstr prog t .blockStart = .ok s₁) :
    s₁.pc = t.pc.incr ∧ s₁.evalstack = t.evalstack ∧
    s₁.envstack = t.nextAddr :: t.envstack ∧
    s₁.retstack = t.retstack ∧ StateWF prog s₁ := by
  simp only [execInstr] at hexec
  split at hexec
  · rename_i henv'
    exact absurd henv' henv
  · rename_i cur es henv'
    simp only [VMState.alloc, StepRes.ok.injEq] at hexec
    subst hexec
    obtain ⟨hwf', hlk'⟩ := stateWF_alloc_table hwf (some cur)
    refine ⟨rfl, rfl, rfl, rfl, ?_⟩
    refine stateWF_same_heap hwf' rfl rfl ?_ ?_
    · intro w hw
      exact LiveVal_append _ (hwf.2.2.1 w hw)
    · intro a ha
      rcases List.mem_cons.mp ha with rfl | ha'
      · exact ⟨some cur, [], hlk'⟩
      · obtain ⟨pr, m, hm⟩ := hwf.2.1 a ha'
        exact ⟨pr, m, lookupObj_append₁ _ hm⟩

theorem exec_blockEnd_inv {prog : Program} {t s₁ : VMState} {a : Nat} {es : List Nat}
    (hwf : StateWF prog t) (henv : t.envstack = a :: es)
    (hexec : execInstr prog t .blockEnd = .ok s₁) :
    s₁.pc = t.pc.incr ∧ s₁.evalstack = t.evalstack ∧ s₁.envstack = es ∧
    s₁.retstack = t.retstack ∧ StateWF prog s₁ := by
  simp only [execInstr] at hexec
  split at hexec
  · rename_i henv'
    rw [henv'] at henv
    cases henv
  · rename_i a' es' henv'
    rw [henv'] at henv
    cases henv
    simp only [StepRes.ok.injEq] at hexec
    subst hexec
    refine ⟨rfl, rfl, rfl, rfl, stateWF_same_heap hwf rfl rfl hwf.2.2.1 ?_⟩
    intro x hx
    exact hwf.2.1 x (by rw [henv']; exact List.mem_cons_of_mem _ hx)

theorem exec_ifJump_inv {prog : Program} {t s₁ : VMState} {target : Int} {w : Value}
    {rest : List Value} (hwf : StateWF prog t) (hev : t.evalstack = w :: rest)
    (hexec : execInstr prog t (.ifJump target) = .ok s₁) :
    s₁.pc = (if w.truthy then t.pc.incr else t.pc.move target) ∧ s₁.evalstack = rest ∧
    s₁.envstack = t.envstack ∧ s₁.retstack = t.retstack ∧ StateWF prog s₁ := by
  simp only [execInstr] at hexec
  split at hexec
  · rename_i hev'
    rw [hev'] at hev
    cases hev
  · rename_i w' rest' hev'
    rw [hev'] at hev
    cases hev
    simp only [StepRes.ok.injEq] at hexec
    subst hexec
    refine ⟨rfl, rfl, rfl, rfl, stateWF_same_heap hwf rfl rfl ?_ hwf.2.1⟩
    intro v hv
    exact hwf.2.2.1 v (by rw [hev']; exact List.mem_cons_of_mem _ hv)

theorem exec_elseJump_inv {prog : Program} {t s₁ : VMState} {target : Int}
    (hwf : StateWF prog t) (hexec : execInstr prog t (.elseJump target) = .ok s₁) :
    s₁.pc = t.pc.move target ∧ s₁.evalstack = t.evalstack ∧ s₁.envstack = t.envstack ∧
    s₁.retstack = t.retstack ∧ StateWF prog s₁ := by
  simp only [execInstr, StepRes.ok.injEq] at hexec
  subst hexec
  exact ⟨rfl, rfl, rfl, rfl, stateWF_same_heap hwf rfl rfl hwf.2.2.1 hwf.2.1⟩

theorem exec_call_inv {prog : Program} {t s₁ : VMState} {nargs : Int} {fa : Nat}
    {rest : List Value} (hwf : StateWF prog t) (hev : t.evalstack = .function fa :: rest)
    (hexec : execInstr prog t (.call nargs) = .ok s₁) :
    ∃ fenv fblob h',
      lookupObj t.heap fa = some (.function fenv fblob) ∧
      BlobOK prog fblob ∧
      nargs = ((prog.blobAt fblob).args.length : Int) ∧
      s₁ = { t with
               heap := h'
               nextAddr := t.nextAddr + 1
               evalstack := rest.drop (prog.blobAt fblob).args.length
               retstack := t.pc.incr :: t.retstack
               envstack := t.nextAddr :: t.envstack
               pc := ⟨fblob, 0⟩ } ∧
      StateWF prog s₁ := by
  have hlv := hwf.2.2.1 (.function fa) (by rw [hev]; exact List.mem_cons_self _ _)
  obtain ⟨fenv, fblob, hlk⟩ := hlv
  simp only [execInstr, hev, hlk, VMState.alloc] at hexec
  split at hexec
  · cases hexec
  · rename_i hne
    split at hexec
    · cases hexec
    · rename_i h' hb
      simp only [StepRes.ok.injEq] at hexec
      have hnargs : nargs = ((prog.blobAt fblob).args.length : Int) := by
        by_contra hc
        exact hne hc
      refine ⟨fenv, fblob, h', hlk, hwf.1.1 fa fenv fblob hlk, hnargs, ?_, ?_⟩
      · rw [← hexec]
      · obtain ⟨hwf₂, hlk₂⟩ := stateWF_alloc_table hwf (some fenv)
        have hmemrest : ∀ v ∈ rest, v ∈ t.evalstack := by
          intro v hv
          rw [hev]
          exact List.mem_cons_of_mem _ hv
        have hwf₃ : StateWF prog
            { t with
                heap := t.heap ++ [(t.nextAddr, .table (some fenv) [])]
                nextAddr := t.nextAddr + 1
                evalstack := rest.drop (prog.blobAt fblob).args.length
                retstack := t.pc.incr :: t.retstack
                envstack := t.nextAddr :: t.envstack
                pc := ⟨fblob, 0⟩ } := by
          refine stateWF_same_heap hwf₂ rfl rfl ?_ ?_
          · intro v hv
            exact LiveVal_append _
              (hwf.2.2.1 v (hmemrest v (List.mem_of_mem_drop hv)))
          · intro a ha
            rcases List.mem_cons.mp ha with rfl | ha'
            · exact ⟨some fenv, [], hlk₂⟩
            · obtain ⟨pr, m, hm⟩ := hwf.2.1 a ha'
              exact ⟨pr, m, lookupObj_append₁ _ hm⟩
        have hwfF := stateWF_bindArgs hwf₃ hlk₂ ?_ hb
        · rw [← hexec]
          exact stateWF_same_heap hwfF rfl rfl hwfF.2.2.1 hwfF.2.1
        · intro v hv
          rw [List.mem_reverse] at hv
          exact LiveVal_append _
            (hwf.2.2.1 v (hmemrest v (List.mem_of_mem_take hv)))

theorem step_at {prog : Program} {mode : Mode} {n : Nat} {s sf : VMState} {b i : Nat}
    {x : Instr} (hsteps : StepsN prog mode n s sf) (hfin : isFinal prog sf = true)
    (hpc : s.pc = ⟨b, (i : Int)⟩) (hseg : SegAt prog b i [x]) :
    ∃ n' s₁, n = n' + 1 ∧ StepsN prog mode 1 s s₁ ∧ StepsN prog mode n' s₁ sf ∧
      execInstr prog (gcPhase mode s) x = .ok s₁ := by
  obtain ⟨hnd, hget⟩ := fetch_single hseg
  rw [← hpc] at hnd hget
  obtain ⟨n', s₁, hn, hrest, hstep, hexec⟩ := exec_one hsteps hfin hnd
  exact ⟨n', s₁, hn, stepsN_one (isFinal_of_notdone hnd) hstep, hrest, by
    rw [← hget]; exact hexec⟩

theorem steps_final {prog : Program} {mode : Mode} {k : Nat} {s sf : VMState}
    (h : StepsN prog mode k s sf) (hf : isFinal prog s = true) : sf = s := by
  cases h with
  | zero => rfl
  | more hnf _ _ =>
    rw [hf] at hnf
    cases hnf

theorem exec_call_top {prog : Program} {t s₁ : VMState} {nargs : Int}
    (hexec : execInstr prog t (.call nargs) = .ok s₁) :
    ∃ fa rest, t.evalstack = Value.function fa :: rest := by
  simp only [execInstr] at hexec
  split at hexec
  · cases hexec
  · rename_i v rest hev
    split at hexec
    · rename_i faddr
      exact ⟨faddr, rest, hev⟩
    · cases hexec

theorem len_snoc (i : Nat) (A : List Instr) (x : Instr) :
    i + A.length + 1 = i + (A ++ [x]).length := by
  simp only [List.length_append, List.length_cons, List.length_nil]
  omega

theorem placed_cons {prog : Program} {k : Nat} {x : Blob} {rest : List Blob}
    (h : Placed prog k (x :: rest)) : prog.blobAt k = x ∧ Placed prog (k + 1) rest := by
  have hx : Placed prog k ([x] ++ rest) := by simpa using h
  have h2 := placed_append hx
  refine ⟨?_, by simpa using h2.2⟩
  have h0 := h2.1 0 (by simp)
  simpa using h0

theorem seqFrame {prog : Program} {mode : Mode} :
    ∀ (args : List Expr) (n : Nat) (s sf : VMState) (b i k : Nat),
    (∀ e ∈ args, ∀ m, m ≤ n → FrameStmt m e) →
    StepsN prog mode n s sf → isFinal prog sf = true →
    s.pc = ⟨b, (i : Int)⟩ →
    SegAt prog b i (emitSeq args i k) →
    Placed prog k (blobsOfList args k) →
    StateWF prog s →
    s.envstack ≠ [] →
    ∃ m s' vs, m ≤ n ∧ StepsN prog mode m s s' ∧ StepsN prog mode (n - m) s' sf ∧
      s'.pc = ⟨b, ((i + (emitSeq args i k).length : Nat) : Int)⟩ ∧
      vs.length = args.length ∧
      s'.evalstack = vs ++ s.evalstack ∧
      s'.envstack = s.envstack ∧
      s'.retstack = s.retstack ∧
      StateWF prog s' := by
  intro args
  induction args with
  | nil =>
    intro n s sf b i k hframe hsteps hfin hpc hseg hplaced hwf henv
    refine ⟨0, s, [], Nat.zero_le n, StepsN.zero s, ?_, ?_, rfl, rfl, rfl, rfl, hwf⟩
    · simpa using hsteps
    · simpa [emitSeq] using hpc
  | cons e es ih =>
    intro n s sf b i k hframe hsteps hfin hpc hseg hplaced hwf henv
    have hcons : emitSeq (e :: es) i k =
        emit e i k ++ emitSeq es (i + (emit e i k).length) (k + nb e) := by
      simp [emitSeq]
    rw [hcons] at hseg
    have hsegL := segAt_left hseg
    have hsegR := segAt_right hseg
    have hplX : Placed prog k (blobsOf e k ++ blobsOfList es (k + nb e)) := by
      have h := hplaced
      rw [show blobsOfList (e :: es) k =
          blobsOf e k ++ blobsOfList es (k + nb e) from by simp [blobsOfList]] at h
      exact h
    have hplA := placed_append hplX
    obtain ⟨m₁, s₁, v₁, hm₁, hm₁1, hst₁, hrest₁, hpc₁, hev₁, hen₁, hrt₁, hwf₁⟩ :=
      hframe e (List.mem_cons_self e es) n le_rfl prog mode s sf b i k
        hsteps hfin hpc hsegL hplA.1 hwf henv
    have hplB : Placed prog (k + nb e) (blobsOfList es (k + nb e)) := by
      have h := hplA.2
      rwa [length_blobsOf e k] at h
    obtain ⟨m₂, s₂, vs₂, hm₂, hst₂, hrest₂, hpc₂, hlen₂, hev₂, hen₂, hrt₂, hwf₂⟩ :=
      ih (n - m₁) s₁ sf b (i + (emit e i k).length) (k + nb e)
        (fun e' he' m hm => hframe e' (List.mem_cons_of_mem e he') m (by omega))
        hrest₁ hfin hpc₁ hsegR hplB hwf₁ (by rw [hen₁]; exact henv)
    refine ⟨m₁ + m₂, s₂, vs₂ ++ [v₁], by omega, StepsN.trans hst₁ hst₂, ?_, ?_, ?_, ?_, ?_, ?_,
      hwf₂⟩
    · rw [show n - (m₁ + m₂) = n - m₁ - m₂ from by omega]
      exact hrest₂
    · rw [hpc₂, show i + (emit e i k).length +
          (emitSeq es (i + (emit e i k).length) (k + nb e)).length =
          i + (emitSeq (e :: es) i k).length from by
        rw [hcons, List.length_append]; omega]
    · simp [hlen₂]
    · rw [hev₂, hev₁]
      simp
    · rw [hen₂, hen₁]
    · rw [hrt₂, hrt₁]

theorem blockFrame {prog : Program} {mode : Mode} :
    ∀ (cs : List Expr) (c : Expr) (n : Nat) (s sf : VMState) (b i k : Nat),
    (∀ e ∈ c :: cs, ∀ m, m ≤ n → FrameStmt m e) →
    StepsN prog mode n s sf → isFinal prog sf = true →
    s.pc = ⟨b, (i : Int)⟩ →
    SegAt prog b i (emitBlock c cs i k) →
    Placed prog k (blobsOfList (c :: cs) k) →
    StateWF prog s →
    s.envstack ≠ [] →
    ∃ m s' v, m ≤ n ∧ StepsN prog mode m s s' ∧ StepsN prog mode (n - m) s' sf ∧
      s'.pc = ⟨b, ((i + (emitBlock c cs i k).length : Nat) : Int)⟩ ∧
      s'.evalstack = v :: s.evalstack ∧
      s'.envstack = s.envstack ∧
      s'.retstack = s.retstack ∧
      StateWF prog s' := by
  intro cs
  induction cs with
  | nil =>
    intro c n s sf b i k hframe hsteps hfin hpc hseg hplaced hwf henv
    have hblk : emitBlock c [] i k = emit c i k := by simp [emitBlock]
    rw [hblk] at hseg
    have hpl : Placed prog k (blobsOf c k) := by
      have h := hplaced
      rw [show blobsOfList [c] k = blobsOf c k from by simp [blobsOfList]] at h
      exact h
    obtain ⟨m₁, s₁, v₁, hm₁, hm₁1, hst₁, hrest₁, hpc₁, hev₁, hen₁, hrt₁, hwf₁⟩ :=
      hframe c (List.mem_cons_self c []) n le_rfl prog mode s sf b i k
        hsteps hfin hpc hseg hpl hwf henv
    rw [hblk]
    exact ⟨m₁, s₁, v₁, hm₁, hst₁, hrest₁, hpc₁, hev₁, hen₁, hrt₁, hwf₁⟩
  | cons c' rest ihb =>
    intro c n s sf b i k hframe hsteps hfin hpc hseg hplaced hwf henv
    have hblk : emitBlock c (c' :: rest) i k =
        emit c i k ++ [.pop] ++ emitBlock c' rest (i + (emit c i k).length + 1) (k + nb c) := by
      simp [emitBlock]
    rw [hblk] at hseg
    have hsegCC : SegAt prog b i (emit c i k) := segAt_left (segAt_left hseg)
    have hsegPop : SegAt prog b (i + (emit c i k).length) [Instr.pop] :=
      segAt_right (segAt_left hseg)
    have hsegB : SegAt prog b (i + (emit c i k).length + 1)
        (emitBlock c' rest (i + (emit c i k).length + 1) (k + nb c)) := by
      have h := segAt_right hseg
      rwa [show i + (emit c i k ++ [Instr.pop]).length = i + (emit c i k).length + 1 from by
        simp only [List.length_append, List.length_cons, List.length_nil]; omega] at h
    have hplX : Placed prog k (blobsOf c k ++ blobsOfList (c' :: rest) (k + nb c)) := by
      have h := hplaced
      rw [show blobsOfList (c :: c' :: rest) k =
          blobsOf c k ++ blobsOfList (c' :: rest) (k + nb c) from by simp [blobsOfList]] at h
      exact h
    have hplA := placed_append hplX
    have hplB : Placed prog (k + nb c) (blobsOfList (c' :: rest) (k + nb c)) := by
      have h := hplA.2
      rwa [length_blobsOf c k] at h
    obtain ⟨m₁, s₁, v₁, hm₁, hm₁1, hst₁, hrest₁, hpc₁, hev₁, hen₁, hrt₁, hwf₁⟩ :=
      hframe c (List.mem_cons_self c (c' :: rest)) n le_rfl prog mode s sf b i k
        hsteps hfin hpc hsegCC hplA.1 hwf henv
    obtain ⟨n', s₂, hn', hstPop, hrestPop, hexec⟩ := step_at hrest₁ hfin hpc₁ hsegPop
    have gf := gcPhase_preserves prog mode s₁ hwf₁
    obtain ⟨hp1, hp2, hp3, hp4, hp5⟩ := exec_pop_inv gf.1
      (by rw [gf.2.1, hev₁] : (gcPhase mode s₁).evalstack = v₁ :: s.evalstack) hexec
    have hpc₂ : s₂.pc = ⟨b, ((i + (emit c i k).length + 1 : Nat) : Int)⟩ := by
      rw [hp1, gf.2.2.2.2.1, hpc₁, pc_incr_nat]
    have hen₂ : s₂.envstack = s.envstack := by
      rw [hp3, gf.2.2.2.1, hen₁]
    have hrt₂ : s₂.retstack = s.retstack := by
      rw [hp4, gf.2.2.1, hrt₁]
    obtain ⟨m₂, s₃, v₃, hm₂, hst₃, hrest₃, hpc₃, hev₃, hen₃, hrt₃, hwf₃⟩ :=
      ihb c' n' s₂ sf b (i + (emit c i k).length + 1) (k + nb c)
        (fun e' he' m hm => hframe e' (List.mem_cons_of_mem c he') m (by omega))
        hrestPop hfin hpc₂ hsegB hplB hp5 (by rw [hen₂]; exact henv)
    refine ⟨m₁ + 1 + m₂, s₃, v₃, by omega, ?_, ?_, ?_, ?_, ?_, ?_, hwf₃⟩
    · rw [show m₁ + 1 + m₂ = m₁ + (1 + m₂) from by omega]
      exact StepsN.trans hst₁ (StepsN.trans hstPop hst₃)
    · rw [show n - (m₁ + 1 + m₂) = n' - m₂ from by omega]
      exact hrest₃
    · rw [hpc₃, show i + (emit c i k).length + 1 +
          (emitBlock c' rest (i + (emit c i k).length + 1) (k + nb c)).length =
          i + (emitBlock c (c' :: rest) i k).length from by
        rw [hblk, List.length_append, List.length_append]; simp; omega]
    · rw [hev₃, hp2]
    · rw [hen₃, hen₂]
    · rw [hrt₃, hrt₂]

theorem segAt_reindex {prog : Program} {b i : Nat} {Y : List Instr} (j : Nat)
    (h : SegAt prog b i Y) (hij : i = j) : SegAt prog b j Y := by
  rw [← hij]
  exact h

theorem frameStmt_all : ∀ (n : Nat) (e : Expr), FrameStmt n e := by
  intro n
  induction n using Nat.strong_induction_on with
  | _ n IHn =>
    suffices hsz : ∀ (se : Nat) (e : Expr), sizeOf e ≤ se → FrameStmt n e by
      intro e
      exact hsz (sizeOf e) e le_rfl
    intro se
    induction se using Nat.strong_induction_on with
    | _ se IHse =>
      intro e hse
      have hsub : ∀ (m : Nat), m ≤ n → ∀ (e' : Expr), sizeOf e' < sizeOf e → FrameStmt m e' := by
        intro m hm e' he'
        rcases Nat.lt_or_ge m n with hlt | hge
        · exact IHn m hlt e'
        · have heq : m = n := Nat.le_antisymm hm hge
          subst heq
          exact IHse (sizeOf e') (by omega) e' le_rfl
      cases e with
      | nil =>
        intro prog mode s sf b i k hsteps hfin hpc hseg hplaced hwf henv
        rw [show emit Expr.nil i k = [Instr.pushNil] from by simp [emit]] at hseg
        have h := frame_single hsteps hfin hpc hseg hwf
          (fun u s₁ hwt _ _ _ _ hexec => exec_pushNil_inv hwt hexec)
        rw [show (emit Expr.nil i k).length = 1 from by simp [emit]]
        exact h
      | int j =>
        intro prog mode s sf b i k hsteps hfin hpc hseg hplaced hwf henv
        rw [show emit (Expr.int j) i k = [Instr.pushInteger j] from by simp [emit]] at hseg
        have h := frame_single hsteps hfin hpc hseg hwf
          (fun u s₁ hwt _ _ _ _ hexec => exec_pushInteger_inv hwt hexec)
        rw [show (emit (Expr.int j) i k).length = 1 from by simp [emit]]
        exact h
      | var nm =>
        intro prog mode s sf b i k hsteps hfin hpc hseg hplaced hwf henv
        rw [show emit (Expr.var nm) i k = [Instr.pushVariable nm] from by simp [emit]] at hseg
        have h := frame_single hsteps hfin hpc hseg hwf
          (fun u s₁ hwt _ _ _ _ hexec => exec_pushVariable_inv hwt hexec)
        rw [show (emit (Expr.var nm) i k).length = 1 from by simp [emit]]
        exact h
      | lambda ps body =>
        intro prog mode s sf b i k hsteps hfin hpc hseg hplaced hwf henv
        rw [show emit (Expr.lambda ps body) i k = [Instr.pushFunction k] from by
          simp [emit]] at hseg
        rw [show blobsOf (Expr.lambda ps body) k =
            Blob.mk ps (emit body 0 (k + 1)) :: blobsOf body (k + 1) from by
          simp [blobsOf]] at hplaced
        have hplc := placed_cons hplaced
        have hok : BlobOK prog k := ⟨ps, body, k + 1, hplc.1, hplc.2⟩
        have h := frame_single hsteps hfin hpc hseg hwf
          (fun u s₁ hwt _ _ _ _ hexec => exec_pushFunction_inv hwt hok hexec)
        rw [show (emit (Expr.lambda ps body) i k).length = 1 from by simp [emit]]
        exact h
      | decl nm init =>
        intro prog mode s sf b i k hsteps hfin hpc hseg hplaced hwf henv
        have hemit : emit (Expr.decl nm init) i k =
            emit init i k ++ [Instr.declareVariable nm] := by simp [emit]
        rw [hemit] at hseg
        have hsegL := segAt_left hseg
        have hsegD := segAt_right hseg
        rw [show blobsOf (Expr.decl nm init) k = blobsOf init k from by
          simp [blobsOf]] at hplaced
        obtain ⟨m₁, s₁, v₁, hm₁, hm₁1, hst₁, hrest₁, hpc₁, hev₁, hen₁, hrt₁, hwf₁⟩ :=
          hsub n le_rfl init (by simp only [Expr.decl.sizeOf_spec]; omega)
            prog mode s sf b i k hsteps hfin hpc hsegL hplaced hwf henv
        obtain ⟨n₂, s₂, hn₂, hstD, hrestD, hexecD⟩ := step_at hrest₁ hfin hpc₁ hsegD
        have gf := gcPhase_preserves prog mode s₁ hwf₁
        obtain ⟨hp1, hp2, hp3, hp4, hp5⟩ := exec_declare_inv gf.1 hexecD
        refine ⟨m₁ + 1, s₂, v₁, by omega, by omega, StepsN.trans hst₁ hstD, ?_, ?_, ?_, ?_, ?_,
          hp5⟩
        · rw [show n - (m₁ + 1) = n₂ from by omega]
          exact hrestD
        · rw [hp1, gf.2.2.2.2.1, hpc₁, pc_incr_nat,
            len_snoc i (emit init i k) (Instr.declareVariable nm), ← hemit]
        · rw [hp2, gf.2.1, hev₁]
        · rw [hp3, gf.2.2.2.1, hen₁]
        · rw [hp4, gf.2.2.1, hrt₁]
      | print child =>
        intro prog mode s sf b i k hsteps hfin hpc hseg hplaced hwf henv
        have hemit : emit (Expr.print child) i k =
            emit child i k ++ [Instr.debugPrint] := by simp [emit]
        rw [hemit] at hseg
        have hsegL := segAt_left hseg
        have hsegD := segAt_right hseg
        rw [show blobsOf (Expr.print child) k = blobsOf child k from by
          simp [blobsOf]] at hplaced
        obtain ⟨m₁, s₁, v₁, hm₁, hm₁1, hst₁, hrest₁, hpc₁, hev₁, hen₁, hrt₁, hwf₁⟩ :=
          hsub n le_rfl child (by simp only [Expr.print.sizeOf_spec]; omega)
            prog mode s sf b i k hsteps hfin hpc hsegL hplaced hwf henv
        obtain ⟨n₂, s₂, hn₂, hstD, hrestD, hexecD⟩ := step_at hrest₁ hfin hpc₁ hsegD
        have gf := gcPhase_preserves prog mode s₁ hwf₁
        obtain ⟨hp1, hp2, hp3, hp4, hp5⟩ := exec_debugPrint_inv gf.1 hexecD
        refine ⟨m₁ + 1, s₂, v₁, by omega, by omega, StepsN.trans hst₁ hstD, ?_, ?_, ?_, ?_, ?_,
          hp5⟩
        · rw [show n - (m₁ + 1) = n₂ from by omega]
          exact hrestD
        · rw [hp1, gf.2.2.2.2.1, hpc₁, pc_incr_nat,
            len_snoc i (emit child i k) Instr.debugPrint, ← hemit]
        · rw [hp2, gf.2.1, hev₁]
        · rw [hp3, gf.2.2.2.1, hen₁]
        · rw [hp4, gf.2.2.1, hrt₁]
      | block cs =>
        cases cs with
        | nil =>
          intro prog mode s sf b i k hsteps hfin hpc hseg hplaced hwf henv
          rw [show emit (Expr.block []) i k = [Instr.pushNil] from by simp [emit]] at hseg
          have h := frame_single hsteps hfin hpc hseg hwf
            (fun u s₁ hwt _ _ _ _ hexec => exec_pushNil_inv hwt hexec)
          rw [show (emit (Expr.block []) i k).length = 1 from by simp [emit]]
          exact h
        | cons c rest =>
          intro prog mode s sf b i k hsteps hfin hpc hseg hplaced hwf henv
          have hemit : emit (Expr.block (c :: rest)) i k =
              Instr.blockStart :: (emitBlock c rest (i + 1) k ++ [Instr.blockEnd]) := by
            simp [emit]
          rw [hemit] at hseg
          have hsegBS : SegAt prog b i [Instr.blockStart] := segAt_cons_head hseg
          have hsegT := segAt_cons_tail hseg
          have hsegEB := segAt_left hsegT
          have hsegBE := segAt_right hsegT
          rw [show blobsOf (Expr.block (c :: rest)) k = blobsOfList (c :: rest) k from by
            simp [blobsOf]] at hplaced
          obtain ⟨n₁, s₁, hn₁, hst₁, hrest₁, hexec₁⟩ := step_at hsteps hfin hpc hsegBS
          have gf₁ := gcPhase_preserves prog mode s hwf
          obtain ⟨hq1, hq2, hq3, hq4, hq5⟩ := exec_blockStart_inv gf₁.1
            (by rw [gf₁.2.2.2.1]; exact henv) hexec₁
          have hpc₁ : s₁.pc = ⟨b, ((i + 1 : Nat) : Int)⟩ := by
            rw [hq1, gf₁.2.2.2.2.1, hpc, pc_incr_nat]
          have hframe' : ∀ e ∈ c :: rest, ∀ m, m ≤ n₁ → FrameStmt m e := by
            intro e hemem m hm
            refine hsub m (by omega) e ?_
            have hlt := List.sizeOf_lt_of_mem hemem
            simp only [Expr.block.sizeOf_spec]
            omega
          obtain ⟨m₂, s₂, v₂, hm₂, hst₂, hrest₂, hpc₂, hev₂, hen₂, hrt₂, hwf₂⟩ :=
            blockFrame rest c n₁ s₁ sf b (i + 1) k hframe' hrest₁ hfin hpc₁ hsegEB hplaced
              hq5 (by rw [hq3]; exact List.cons_ne_nil _ _)
          obtain ⟨n₃, s₃, hn₃, hst₃, hrest₃, hexec₃⟩ := step_at hrest₂ hfin hpc₂ hsegBE
          have gf₂ := gcPhase_preserves prog mode s₂ hwf₂
          obtain ⟨hr1, hr2, hr3, hr4, hr5⟩ := exec_blockEnd_inv gf₂.1
            (show (gcPhase mode s₂).envstack =
                (gcPhase mode s).nextAddr :: (gcPhase mode s).envstack from by
              rw [gf₂.2.2.2.1, hen₂, hq3]) hexec₃
          refine ⟨1 + m₂ + 1, s₃, v₂, by omega, by omega, ?_, ?_, ?_, ?_, ?_, ?_, hr5⟩
          · rw [show 1 + m₂ + 1 = 1 + (m₂ + 1) from by omega]
            exact StepsN.trans hst₁ (StepsN.trans hst₂ hst₃)
          · rw [show n - (1 + m₂ + 1) = n₃ from by omega]
            exact hrest₃
          · have hidx : i + 1 + (emitBlock c rest (i + 1) k).length + 1 =
                i + (emit (Expr.block (c :: rest)) i k).length := by
              rw [hemit]
              simp only [List.length_append, List.length_cons, List.length_nil]
              omega
            rw [hr1, gf₂.2.2.2.2.1, hpc₂, pc_incr_nat, hidx]
          · rw [hr2, gf₂.2.1, hev₂, hq2, gf₁.2.1]
          · rw [hr3, gf₁.2.2.2.1]
          · rw [hr4, gf₂.2.2.1, hrt₂, hq4, gf₁.2.2.1]
      | ifE c t f =>
        intro prog mode s sf b i k hsteps hfin hpc hseg hplaced hwf henv
        have hemit : emit (Expr.ifE c t f) i k =
            emit c i k ++
            [Instr.ifJump (((i + (emit c i k).length + 1 +
                (emit t (i + (emit c i k).length + 1) (k + nb c)).length : Nat) : Int) + 1)] ++
            emit t (i + (emit c i k).length + 1) (k + nb c) ++
            [Instr.elseJump (((i + (emit c i k).length + 1 +
                (emit t (i + (emit c i k).length + 1) (k + nb c)).length + 1 +
                (emit f (i + (emit c i k).length + 1 +
                  (emit t (i + (emit c i k).length + 1) (k + nb c)).length + 1)
                  (k + nb c + nb t)).length : Nat) : Int))] ++
            emit f (i + (emit c i k).length + 1 +
              (emit t (i + (emit c i k).length + 1) (k + nb c)).length + 1)
              (k + nb c + nb t) := by
          simp [emit]
        rw [hemit] at hseg
        have hsegCC : SegAt prog b i (emit c i k) :=
          segAt_left (segAt_left (segAt_left (segAt_left hseg)))
        have hsegU := segAt_right (segAt_left (segAt_left (segAt_left hseg)))
        have hsegTC := segAt_reindex (i + (emit c i k).length + 1)
          (segAt_right (segAt_left (segAt_left hseg)))
          (by simp only [List.length_append, List.length_cons, List.length_nil]; omega)
        have hsegW := segAt_reindex
          (i + (emit c i k).length + 1 +
            (emit t (i + (emit c i k).length + 1) (k + nb c)).length)
          (segAt_right (segAt_left hseg))
          (by simp only [List.length_append, List.length_cons, List.length_nil]; omega)
        have hsegFC := segAt_reindex
          (i + (emit c i k).length + 1 +
            (emit t (i + (emit c i k).length + 1) (k + nb c)).length + 1)
          (segAt_right hseg)
          (by simp only [List.length_append, List.length_cons, List.length_nil]; omega)
        rw [show blobsOf (Expr.ifE c t f) k =
            blobsOf c k ++ blobsOf t (k + nb c) ++ blobsOf f (k + nb c + nb t) from by
          simp [blobsOf]] at hplaced
        have hplAB := placed_append hplaced
        have hplA := placed_append hplAB.1
        have hplC : Placed prog k (blobsOf c k) := hplA.1
        have hplT : Placed prog (k + nb c) (blobsOf t (k + nb c)) := by
          have h := hplA.2
          rwa [length_blobsOf c k] at h
        have hplF : Placed prog (k + nb c + nb t) (blobsOf f (k + nb c + nb t)) := by
          have h := hplAB.2
          rwa [show k + (blobsOf c k ++ blobsOf t (k + nb c)).length = k + nb c + nb t from by
            simp only [List.length_append, length_blobsOf]; omega] at h
        obtain ⟨m₁, s₁, vc, hm₁, hm₁1, hst₁, hrest₁, hpc₁, hev₁, hen₁, hrt₁, hwf₁⟩ :=
          hsub n le_rfl c (by simp only [Expr.ifE.sizeOf_spec]; omega)
            prog mode s sf b i k hsteps hfin hpc hsegCC hplC hwf henv
        obtain ⟨n₂, s₂, hn₂, hstJ, hrestJ, hexecJ⟩ := step_at hrest₁ hfin hpc₁ hsegU
        have gfJ := gcPhase_preserves prog mode s₁ hwf₁
        obtain ⟨hj1, hj2, hj3, hj4, hj5⟩ := exec_ifJump_inv gfJ.1
          (show (gcPhase mode s₁).evalstack = vc :: s.evalstack from by
            rw [gfJ.2.1, hev₁]) hexecJ
        have hen₂ : s₂.envstack = s.envstack := by rw [hj3, gfJ.2.2.2.1, hen₁]
        have hrt₂ : s₂.retstack = s.retstack := by rw [hj4, gfJ.2.2.1, hrt₁]
        have hLen : i + (emit c i k).length + 1 +
            (emit t (i + (emit c i k).length + 1) (k + nb c)).length + 1 +
            (emit f (i + (emit c i k).length + 1 +
              (emit t (i + (emit c i k).length + 1) (k + nb c)).length + 1)
              (k + nb c + nb t)).length =
            i + (emit (Expr.ifE c t f) i k).length := by
          rw [hemit]
          simp only [List.length_append, List.length_cons, List.length_nil]
          omega
        by_cases hb : vc.truthy = true
        · rw [if_pos hb] at hj1
          have hpc₂ : s₂.pc = ⟨b, ((i + (emit c i k).length + 1 : Nat) : Int)⟩ := by
            rw [hj1, gfJ.2.2.2.2.1, hpc₁, pc_incr_nat]
          obtain ⟨m₃, s₃, vt, hm₃, hm₃1, hst₃, hrest₃, hpc₃, hev₃, hen₃, hrt₃, hwf₃⟩ :=
            hsub n₂ (by omega) t (by simp only [Expr.ifE.sizeOf_spec]; omega)
              prog mode s₂ sf b (i + (emit c i k).length + 1) (k + nb c)
              hrestJ hfin hpc₂ hsegTC hplT hj5 (by rw [hen₂]; exact henv)
          obtain ⟨n₄, s₄, hn₄, hstE, hrestE, hexecE⟩ := step_at hrest₃ hfin hpc₃ hsegW
          have gfE := gcPhase_preserves prog mode s₃ hwf₃
          obtain ⟨he1, he2, he3, he4, he5⟩ := exec_elseJump_inv gfE.1 hexecE
          refine ⟨m₁ + 1 + m₃ + 1, s₄, vt, by omega, by omega, ?_, ?_, ?_, ?_, ?_, ?_, he5⟩
          · rw [show m₁ + 1 + m₃ + 1 = m₁ + (1 + (m₃ + 1)) from by omega]
            exact StepsN.trans hst₁ (StepsN.trans hstJ (StepsN.trans hst₃ hstE))
          · rw [show n - (m₁ + 1 + m₃ + 1) = n₄ from by omega]
            exact hrestE
          · have hmv : PC.move
                ⟨b, ((i + (emit c i k).length + 1 +
                  (emit t (i + (emit c i k).length + 1) (k + nb c)).length : Nat) : Int)⟩
                (((i + (emit c i k).length + 1 +
                  (emit t (i + (emit c i k).length + 1) (k + nb c)).length + 1 +
                  (emit f (i + (emit c i k).length + 1 +
                    (emit t (i + (emit c i k).length + 1) (k + nb c)).length + 1)
                    (k + nb c + nb t)).length : Nat) : Int)) =
                ⟨b, ((i + (emit (Expr.ifE c t f) i k).length : Nat) : Int)⟩ := by
              rw [PC.move, ← hLen]
            rw [he1, gfE.2.2.2.2.1, hpc₃, hmv]
          · rw [he2, gfE.2.1, hev₃, hj2]
          · rw [he3, gfE.2.2.2.1, hen₃, hen₂]
          · rw [he4, gfE.2.2.1, hrt₃, hrt₂]
        · rw [if_neg hb] at hj1
          have hmv : PC.move ⟨b, ((i + (emit c i k).length : Nat) : Int)⟩
              (((i + (emit c i k).length + 1 +
                (emit t (i + (emit c i k).length + 1) (k + nb c)).length : Nat) : Int) + 1) =
              ⟨b, ((i + (emit c i k).length + 1 +
                (emit t (i + (emit c i k).length + 1) (k + nb c)).length + 1 : Nat) : Int)⟩ := by
            rw [PC.move]
            congr 1
          have hpc₂ : s₂.pc = ⟨b, ((i + (emit c i k).length + 1 +
              (emit t (i + (emit c i k).length + 1) (k + nb c)).length + 1 : Nat) : Int)⟩ := by
            rw [hj1, gfJ.2.2.2.2.1, hpc₁, hmv]
          obtain ⟨m₃, s₃, vf', hm₃, hm₃1, hst₃, hrest₃, hpc₃, hev₃, hen₃, hrt₃, hwf₃⟩ :=
            hsub n₂ (by omega) f (by simp only [Expr.ifE.sizeOf_spec]; omega)
              prog mode s₂ sf b
              (i + (emit c i k).length + 1 +
                (emit t (i + (emit c i k).length + 1) (k + nb c)).length + 1)
              (k + nb c + nb t)
              hrestJ hfin hpc₂ hsegFC hplF hj5 (by rw [hen₂]; exact henv)
          refine ⟨m₁ + 1 + m₃, s₃, vf', by omega, by omega, ?_, ?_, ?_, ?_, ?_, ?_, hwf₃⟩
          · rw [show m₁ + 1 + m₃ = m₁ + (1 + m₃) from by omega]
            exact StepsN.trans hst₁ (StepsN.trans hstJ hst₃)
          · rw [show n - (m₁ + 1 + m₃) = n₂ - m₃ from by omega]
            exact hrest₃
          · rw [hpc₃, ← hLen]
          · rw [hev₃, hj2]
          · rw [hen₃, hen₂]
          · rw [hrt₃, hrt₂]
      | call f args =>
        intro prog mode s sf b i k hsteps hfin hpc hseg hplaced hwf henv
        have hemit : emit (Expr.call f args) i k =
            emitSeq args i k ++
            emit f (i + (emitSeq args i k).length) (k + nbList args) ++
            [Instr.call (args.length : Int)] := by simp [emit]
        rw [hemit] at hseg
        have hsegA : SegAt prog b i (emitSeq args i k) := segAt_left (segAt_left hseg)
        have hsegF := segAt_right (segAt_left hseg)
        have hsegC := segAt_reindex
          (i + (emitSeq args i k).length +
            (emit f (i + (emitSeq args i k).length) (k + nbList args)).length)
          (segAt_right hseg)
          (by simp only [List.length_append]; omega)
        rw [show blobsOf (Expr.call f args) k =
            blobsOfList args k ++ blobsOf f (k + nbList args) from by
          simp [blobsOf]] at hplaced
        have hplAB := placed_append hplaced
        have hplF : Placed prog (k + nbList args) (blobsOf f (k + nbList args)) := by
          have h := hplAB.2
          rwa [length_blobsOfList args k] at h
        have hframeArgs : ∀ e ∈ args, ∀ m, m ≤ n → FrameStmt m e := by
          intro e hemem m hm
          refine hsub m hm e ?_
          have hlt := List.sizeOf_lt_of_mem hemem
          simp only [Expr.call.sizeOf_spec]
          omega
        obtain ⟨m₁, s₁, vs, hm₁, hst₁, hrest₁, hpc₁, hlvs, hev₁, hen₁, hrt₁, hwf₁⟩ :=
          seqFrame args n s sf b i k hframeArgs hsteps hfin hpc hsegA hplAB.1 hwf henv
        obtain ⟨m₂, s₂, vf, hm₂, hm₂1, hst₂, hrest₂, hpc₂, hev₂, hen₂, hrt₂, hwf₂⟩ :=
          hsub (n - m₁) (by omega) f (by simp only [Expr.call.sizeOf_spec]; omega)
            prog mode s₁ sf b (i + (emitSeq args i k).length) (k + nbList args)
            hrest₁ hfin hpc₁ hsegF hplF hwf₁ (by rw [hen₁]; exact henv)
        obtain ⟨n₃, s₃, hn₃, hstC, hrestC, hexecC⟩ := step_at hrest₂ hfin hpc₂ hsegC
        have gfC := gcPhase_preserves prog mode s₂ hwf₂
        have hevgc : (gcPhase mode s₂).evalstack = vf :: (vs ++ s.evalstack) := by
          rw [gfC.2.1, hev₂, hev₁]
        obtain ⟨fa, rest', htop⟩ := exec_call_top hexecC
        rw [hevgc] at htop
        injection htop with hvf hrest'
        obtain ⟨fenv, fblob, h', hlkC, hokC, hnargsC, hs₃, hwf₃⟩ :=
          exec_call_inv gfC.1 (by rw [hevgc, hvf]) hexecC
        have hparams : (prog.blobAt fblob).args.length = args.length := by
          exact_mod_cast hnargsC.symm
        have hev₃ : s₃.evalstack = s.evalstack := by
          rw [hs₃]
          show (vs ++ s.evalstack).drop (prog.blobAt fblob).args.length = s.evalstack
          rw [show (prog.blobAt fblob).args.length = vs.length from by omega]
          exact List.drop_left vs s.evalstack
        have hrt₃ : s₃.retstack = (gcPhase mode s₂).pc.incr :: (gcPhase mode s₂).retstack := by
          rw [hs₃]
        have hen₃ : s₃.envstack =
            (gcPhase mode s₂).nextAddr :: (gcPhase mode s₂).envstack := by
          rw [hs₃]
        have hpc₃ : s₃.pc = ⟨fblob, ((0 : Nat) : Int)⟩ := by
          simp [hs₃]
        obtain ⟨ps', body, k', hblobEq, hplacedB⟩ := hokC
        have hsegBody : SegAt prog fblob 0 (emit body 0 k') :=
          ⟨[], [], by simp [hblobEq], rfl⟩
        obtain ⟨m₄, s₄, vb, hm₄, hm₄1, hst₄, hrest₄, hpc₄, hev₄, hen₄, hrt₄, hwf₄⟩ :=
          IHn n₃ (by omega) body prog mode s₃ sf fblob 0 k'
            hrestC hfin hpc₃ hsegBody hplacedB hwf₃
            (by rw [hen₃]; exact List.cons_ne_nil _ _)
        have hretne₄ : s₄.retstack ≠ [] := by
          rw [hrt₄, hrt₃]
          exact List.cons_ne_nil _ _
        rw [Nat.zero_add] at hpc₄
        have hdone₄ : pcDone prog s₄.pc = true := by
          rw [hpc₄]
          exact seg_done (by rw [hblobEq])
        obtain ⟨n₅, s₅, hn₅, hrest₅, hstep₅, hchar⟩ := exec_return hrest₄ hfin hdone₄ hretne₄
        have hnf₄ : isFinal prog s₄ = false := by
          simp only [isFinal, Bool.and_eq_false_iff]
          left
          simpa [List.isEmpty_iff] using hretne₄
        have hs₅ := hchar ((gcPhase mode s₂).pc.incr) ((gcPhase mode s₂).retstack)
          ((gcPhase mode s₂).nextAddr) ((gcPhase mode s₂).envstack)
          (by rw [hrt₄, hrt₃]) (by rw [hen₄, hen₃])
        have gfR := gcPhase_preserves prog mode s₄ hwf₄
        refine ⟨m₁ + m₂ + 1 + m₄ + 1, s₅, vb, by omega, by omega, ?_, ?_, ?_, ?_, ?_, ?_, ?_⟩
        · rw [show m₁ + m₂ + 1 + m₄ + 1 = m₁ + (m₂ + (1 + (m₄ + 1))) from by omega]
          exact StepsN.trans hst₁ (StepsN.trans hst₂ (StepsN.trans hstC
            (StepsN.trans hst₄ (stepsN_one hnf₄ hstep₅))))
        · rw [show n - (m₁ + m₂ + 1 + m₄ + 1) = n₅ from by omega]
          exact hrest₅
        · have hidx : i + (emitSeq args i k).length +
              (emit f (i + (emitSeq args i k).length) (k + nbList args)).length + 1 =
              i + (emit (Expr.call f args) i k).length := by
            rw [hemit]
            simp only [List.length_append, List.length_cons, List.length_nil]
            omega
          have hpc₅ : s₅.pc = (gcPhase mode s₂).pc.incr := by rw [hs₅]
          rw [hpc₅, gfC.2.2.2.2.1, hpc₂, pc_incr_nat, hidx]
        · have hev₅ : s₅.evalstack = (gcPhase mode s₄).evalstack := by rw [hs₅]
          rw [hev₅, (gcPhase_fields mode s₄).1, hev₄, hev₃]
        · have hen₅ : s₅.envstack = (gcPhase mode s₂).envstack := by rw [hs₅]
          rw [hen₅, gfC.2.2.2.1, hen₂, hen₁]
        · have hrt₅ : s₅.retstack = (gcPhase mode s₂).retstack := by rw [hs₅]
          rw [hrt₅, gfC.2.2.1, hrt₂, hrt₁]
        · refine stateWF_same_heap gfR.1 (by rw [hs₅]) (by rw [hs₅]) ?_ ?_
          · intro v hv
            refine gfR.1.2.2.1 v ?_
            have hev₅ : s₅.evalstack = (gcPhase mode s₄).evalstack := by rw [hs₅]
            rw [hev₅] at hv
            exact hv
          · intro a ha
            refine gfR.1.2.1 a ?_
            have hen₅ : s₅.envstack = (gcPhase mode s₂).envstack := by rw [hs₅]
            rw [hen₅] at ha
            rw [(gcPhase_fields mode s₄).2.2.1, hen₄, hen₃]
            exact List.mem_cons_of_mem _ ha

theorem compileProgram_blobs (e : Expr) :
    (compileProgram e).blobs = Blob.mk [] (emit e 0 1) :: blobsOf e 1 := by
  simp only [compileProgram, compileE_emit e [] [none], List.nil_append, List.singleton_append,
    List.set_cons_zero, List.map_cons, List.map_map, Option.getD_some]
  rw [show ((fun ob => ob.getD (Blob.mk [] [])) ∘ some : Blob → Blob) = id from
    funext fun x => rfl, List.map_id]
  rfl

theorem compileProgram_blobAt0 (e : Expr) :
    (compileProgram e).blobAt 0 = Blob.mk [] (emit e 0 1) := by
  rw [Program.blobAt, compileProgram_blobs]
  rfl

theorem compileProgram_placed (e : Expr) : Placed (compileProgram e) 1 (blobsOf e 1) := by
  intro j hj
  rw [Program.blobAt, compileProgram_blobs, Nat.add_comm 1 j]
  simp [List.getD_cons_succ]

theorem lookupObj_init (a : Nat) :
    lookupObj [((0 : Nat), Obj.table none [])] a =
      if 0 = a then some (Obj.table none []) else none := rfl

theorem stateWF_initState (prog : Program) : StateWF prog initState := by
  refine ⟨⟨?_, ?_⟩, ?_, ?_, ?_, ?_⟩
  · intro a env bi hlk
    rw [show initState.heap = [((0 : Nat), Obj.table none [])] from rfl,
      lookupObj_init] at hlk
    by_cases h0 : (0 : Nat) = a
    · rw [if_pos h0] at hlk
      cases hlk
    · rw [if_neg h0] at hlk
      cases hlk
  · intro a pr m hlk kv hkv
    rw [show initState.heap = [((0 : Nat), Obj.table none [])] from rfl,
      lookupObj_init] at hlk
    by_cases h0 : (0 : Nat) = a
    · rw [if_pos h0] at hlk
      cases hlk
      cases hkv
    · rw [if_neg h0] at hlk
      cases hlk
  · intro a ha
    rw [show initState.envstack = [0] from rfl, List.mem_singleton] at ha
    subst ha
    exact ⟨none, [], rfl⟩
  · intro v hv
    rw [show initState.evalstack = ([] : List Value) from rfl] at hv
    cases hv
  · intro p hp
    rw [show initState.heap = [((0 : Nat), Obj.table none [])] from rfl,
      List.mem_singleton] at hp
    subst hp
    decide
  · decide

theorem run_done_spec (mode : Mode) (fuel : Nat) (e : Expr) (sf : VMState)
    (h : runExpr mode fuel e = .done sf) :
    ∃ v, sf.evalstack = [v] ∧ sf.retstack = [] ∧ sf.envstack = [0] := by
  have h' : runFuel (compileProgram e) mode fuel initState = .done sf := h
  obtain ⟨n, hn, hsteps, hfin⟩ := runFuel_steps fuel initState sf h'
  obtain ⟨m, s', v, hm, hm1, hst, hrest, hpc', hev', hen', hrt', hwf'⟩ :=
    frameStmt_all n e (compileProgram e) mode initState sf 0 0 1 hsteps hfin rfl
      ⟨[], [], by simp [compileProgram_blobAt0], rfl⟩ (compileProgram_placed e)
      (stateWF_initState _) (by decide)
  rw [Nat.zero_add] at hpc'
  have hdone : pcDone (compileProgram e) s'.pc = true := by
    rw [hpc']
    exact seg_done (by rw [compileProgram_blobAt0])
  have hfinal : isFinal (compileProgram e) s' = true := by
    simp only [isFinal, Bool.and_eq_true]
    refine ⟨?_, hdone⟩
    rw [hrt']
    rfl
  have hsf := steps_final hrest hfinal
  subst hsf
  refine ⟨v, ?_, ?_, ?_⟩
  · rw [hev']
    rfl
  · rw [hrt']
    rfl
  · rw [hen']
    rfl

/-- C5: whenever the run() loop, started on the program compiled from an
expression tree, terminates normally (RunRes.done, i.e. without a thrown
diagnostic and without exhausting fuel), the final state has an empty
return stack and an environment stack of depth exactly one holding only the
root environment (address 0), in either GC mode. -/
theorem claim5_normal_termination_stacks (e : Expr) (mode : Mode) (fuel : Nat)
    (sf : VMState) (h : runExpr mode fuel e = .done sf) :
    sf.retstack = [] ∧ sf.envstack.length = 1 ∧ sf.envstack = [0] := by
  obtain ⟨v, hev, hrt, hen⟩ := run_done_spec mode fuel e sf h
  exact ⟨hrt, by rw [hen]; rfl, hen⟩

/-- C5 witness: the program int 5 run under PROD GC terminates normally in
the concrete final state finalIntFive, whose stacks the theorem then pins. -/
theorem claim5_witness :
    runExpr Mode.prod 20 (Expr.int 5) = RunRes.done finalIntFive ∧
    (finalIntFive.retstack = [] ∧ finalIntFive.envstack.length = 1 ∧
      finalIntFive.envstack = [0]) := by
  have hp : compileProgram (Expr.int 5) = ⟨[⟨[], [Instr.pushInteger 5]⟩]⟩ := by
    simp [compileProgram, compileE]
  have hrun : runExpr Mode.prod 20 (Expr.int 5) = RunRes.done finalIntFive := by
    rw [runExpr, hp]
    decide
  exact ⟨hrun, claim5_normal_termination_stacks (Expr.int 5) Mode.prod 20 finalIntFive hrun⟩

/-- C6: the blob compiled from any expression tree has net value-stack
effect +1 on a normally terminating run: starting from the freshly
constructed VM (empty value stack), exactly one value is left on the value
stack at termination. -/
theorem claim6_net_stack_effect_one (e : Expr) (mode : Mode) (fuel : Nat)
    (sf : VMState) (h : runExpr mode fuel e = .done sf) :
    ∃ v, sf.evalstack = [v] := by
  obtain ⟨v, hev, hrt, hen⟩ := run_done_spec mode fuel e sf h
  exact ⟨v, hev⟩

/-- C6 witness: the program int 5 run under PROD GC terminates normally in
finalIntFive, and the theorem yields its single-value stack. -/
theorem claim6_witness :
    runExpr Mode.prod 20 (Expr.int 5) = RunRes.done finalIntFive ∧
    ∃ v, finalIntFive.evalstack = [v] := by
  have hp : compileProgram (Expr.int 5) = ⟨[⟨[], [Instr.pushInteger 5]⟩]⟩ := by
    simp [compileProgram, compileE]
  have hrun : runExpr Mode.prod 20 (Expr.int 5) = RunRes.done finalIntFive := by
    rw [runExpr, hp]
    decide
  exact ⟨hrun, claim6_net_stack_effect_one (Expr.int 5) Mode.prod 20 finalIntFive hrun⟩

end GcLang
